import Mathlib

/-!
# Asset mappings of gobuildweb (`assets/mappings.go`)

A shallow embedding of the asset-mapping builder: the collection
(`AssetsMapping`) with its `sort.Interface` methods, the callback that
`Build` passes to `filepath.Walk`, the choice between the two dumpers, the
target resolution of the Go-package dumper, the map built by the JSON dumper
with the object its encoding puts in the file, and the text produced by the
template.

Conventions.
* A Go string is a sequence of bytes; here it is a `List Char`, one `Char`
  standing for one byte. Comparison is byte-wise lexicographic (`strLess`).
* A Go run-time panic (slice bounds out of range, nil dereference, index out
  of range) is the result `none`.
* Functions of the Go standard library (`strings`, `path`, `sort`,
  `filepath.Walk`, `map`, `unicode/utf8`, `encoding/json`) are modelled after
  their library behaviour and are named after the library function.
-/

namespace assets

/-- A Go string: a sequence of bytes. -/
abbrev GoString := List Char

/-- A Go `error` value, identified by its message. -/
abbrev GoError := GoString

/-! ## Standard library: strings -/

/-- Byte-wise lexicographic `a < b` on Go strings. -/
def strLess : GoString → GoString → Bool
  | _, [] => false
  | [], _ :: _ => true
  | a :: as, b :: bs =>
    if a < b then true else if b < a then false else strLess as bs

/-- The slice expression `s[n:]`; it panics when `n > len(s)`. -/
def sliceFrom (s : GoString) (n : Nat) : Option GoString :=
  if n ≤ s.length then some (s.drop n) else none

/-- The call `strings.Split(s, "/")`: the pieces of `s` between slashes; the
result is never empty (`Split("", "/")` is `[""]`). -/
def strings.Split : GoString → List GoString
  | [] => [[]]
  | c :: cs =>
    if c = '/' then [] :: strings.Split cs
    else
      match strings.Split cs with
      | [] => [[c]]
      | p :: ps => (c :: p) :: ps

/-- The call `strings.Join(elems, "/")`. -/
def strings.Join : List GoString → GoString
  | [] => []
  | [a] => a
  | a :: b :: rest => a ++ '/' :: strings.Join (b :: rest)

/-- The call `strings.HasPrefix(s, p)`. -/
def strings.HasPrefix (s p : GoString) : Bool := p.isPrefixOf s

/-! ## Standard library: path -/

/-- One iteration of the loop of `path.Clean` on one path element. The output
buffer `out` is kept as the list of elements written so far, last element
first. An empty element and `.` are dropped; `..` removes the last element when
there is one to backtrack over (one that is not itself a leading `..`),
is appended when the path is not rooted, and is dropped otherwise; any other
element is appended. -/
def path.cleanStep (rooted : Bool) (out : List GoString) (e : GoString) : List GoString :=
  if e = [] then out
  else if e = ['.'] then out
  else if e = ['.', '.'] then
    match out with
    | top :: rest =>
      if top ≠ ['.', '.'] then rest
      else if !rooted then e :: out else out
    | [] => if !rooted then [e] else []
  else e :: out

/-- The function `path.Clean`: the shortest path name equivalent to `p` by
lexical processing. -/
def path.Clean (p : GoString) : GoString :=
  if p = [] then ['.']
  else
    let rooted := p.head? = some '/'
    let out := (strings.Split p).foldl (path.cleanStep rooted) []
    if rooted then '/' :: strings.Join out.reverse
    else if out = [] then ['.']
    else strings.Join out.reverse

/-- The function `path.Join`: empty elements are ignored, the others are joined
with slashes and the result is cleaned; all elements empty gives `""`. -/
def path.Join (elem : List GoString) : GoString :=
  let buf := elem.filter (fun e => e ≠ [])
  if buf = [] then [] else path.Clean (strings.Join buf)

/-- The function `path.Base`: the last element of the path, trailing slashes
removed first; `"."` for the empty path and `"/"` for a path of slashes. -/
def path.Base (p : GoString) : GoString :=
  if p = [] then ['.']
  else
    let stripped := (p.reverse.dropWhile (fun c => c = '/')).reverse
    let last := (stripped.reverse.takeWhile (fun c => c ≠ '/')).reverse
    if last = [] then ['/'] else last

/-! ## The collection -/

/-- One record: `Src` is the canonical path, `Target` the fingerprinted one. -/
structure AssetsMappingItem where
  Src : GoString
  Target : GoString
  deriving DecidableEq, Repr

/-- The collection built by one call of `Build`. -/
structure AssetsMapping where
  PkgName : GoString
  Mappings : List AssetsMappingItem
  deriving DecidableEq, Repr

/-- The method `AddItem`: `append(am.Mappings, AssetsMappingItem{src, target})`. -/
def AssetsMapping.AddItem (am : AssetsMapping) (src target : GoString) : AssetsMapping :=
  { am with Mappings := am.Mappings ++ [⟨src, target⟩] }

/-- The method `Len`. -/
def AssetsMapping.Len (am : AssetsMapping) : Nat := am.Mappings.length

/-- The method `Swap`: exchanges the entries at `i` and `j`; an index out of
range panics. -/
def AssetsMapping.Swap (am : AssetsMapping) (i j : Nat) : Option AssetsMapping :=
  match am.Mappings[i]?, am.Mappings[j]? with
  | some x, some y => some { am with Mappings := (am.Mappings.set i y).set j x }
  | _, _ => none

/-- The method `Less`: `am.Mappings[i].Src < am.Mappings[j].Src`; an index out
of range panics. -/
def AssetsMapping.Less (am : AssetsMapping) (i j : Nat) : Option Bool :=
  match am.Mappings[i]?, am.Mappings[j]? with
  | some x, some y => some (strLess x.Src y.Src)
  | _, _ => none

/-! ## The walk -/

/-- The `os.FileInfo` of a visited entry, as far as `Build` reads it. -/
structure FileInfo where
  Name : GoString
  IsDir : Bool
  deriving DecidableEq, Repr

/-- One invocation of the callback by `filepath.Walk`: the path of the entry
(the root joined with the path below it), its file information (absent when
the entry could not be examined) and the error the walk met there. -/
structure WalkVisit where
  name : GoString
  info : Option FileInfo
  err : Option GoError
  deriving DecidableEq, Repr

/-- The three asset categories tested on `parts[0]`. -/
def isCategory (seg : GoString) : Bool :=
  seg == "images".toList || seg == "javascripts".toList || seg == "stylesheets".toList

/-- The function literal that `Build` passes to `filepath.Walk`, as a step on
the collection. The result is `none` when the body panics, otherwise the new
collection and the returned error; the body returns `nil` on every path. -/
def walkFn (mapping : AssetsMapping) (v : WalkVisit) :
    Option (AssetsMapping × Option GoError) :=
  match v.err, v.info with
  | some _, _ => some (mapping, none)
  | none, none => none
  | none, some info =>
    if info.IsDir then some (mapping, none)
    else
      match sliceFrom v.name "public/".toList.length with
      | none => none
      | some name =>
        let parts := strings.Split name
        let filename := info.Name
        let cat :=
          match parts with
          | [] => false
          | p0 :: _ => isCategory p0
        if cat && strings.HasPrefix filename "fp".toList then
          let target := name
          match parts.getLast? with
          | none => none
          | some last =>
            match sliceFrom last 35 with
            | none => none
            | some rest =>
              let parts := parts.set (parts.length - 1) rest
              let src := path.Join parts
              some (mapping.AddItem src target, none)
        else some (mapping, none)

/-- The function `filepath.Walk`, given the entries it visits in order: the
callback is invoked on each, and the first error the callback returns ends the
walk and is the result. The walk itself reports errors only to the callback. -/
def filepath.Walk {σ : Type} (fn : σ → WalkVisit → Option (σ × Option GoError)) :
    σ → List WalkVisit → Option (σ × Option GoError)
  | s, [] => some (s, none)
  | s, v :: vs =>
    match fn s v with
    | none => none
    | some (s', some e) => some (s', some e)
    | some (s', none) => filepath.Walk fn s' vs

/-! ## Dumpers and `Build` -/

/-- Modelled from the spec: the configuration record is declared outside
`mappings.go`; these are the three fields `Build` reads. -/
structure Config where
  AssetsMappingJson : GoString
  AssetsMappingPkg : GoString
  AssetsMappingPkgRelative : GoString
  deriving DecidableEq, Repr

/-- The JSON dumper. -/
structure JsonMappingDumper where
  jsonFile : GoString
  deriving DecidableEq, Repr

/-- The Go-package dumper. -/
structure GoPkgMappingDumper where
  pkgName : GoString
  pkgNameRelative : GoString
  deriving DecidableEq, Repr

/-- The interface `MappingDumper` with its two implementations. -/
inductive MappingDumper where
  | json (d : JsonMappingDumper)
  | goPkg (d : GoPkgMappingDumper)
  deriving DecidableEq, Repr

/-- What a call of `Build` does. -/
inductive BuildResult where
  /-- The walk callback panicked. -/
  | panicked
  /-- The statement `return err` after the walk: no dumper is called. -/
  | walkFailed (err : GoError)
  /-- The statement `return dumper.Dump(mapping)`. -/
  | dumped (dumper : MappingDumper) (mapping : AssetsMapping)
  deriving DecidableEq, Repr

/-- The choice of the dumper in `Build`. -/
def selectDumper (config : Config) : MappingDumper :=
  if config.AssetsMappingJson ≠ [] then
    .json { jsonFile := config.AssetsMappingJson }
  else
    .goPkg { pkgName := config.AssetsMappingPkg,
             pkgNameRelative := config.AssetsMappingPkgRelative }

/-- The collection `Build` starts from. -/
def emptyMapping : AssetsMapping := { PkgName := [], Mappings := [] }

set_option linter.unusedVariables false in
/-- The method `Build`, over the entries the walk of `public` visits. -/
def Build (config : Config) (isProduction : Bool) (visits : List WalkVisit) : BuildResult :=
  match filepath.Walk walkFn emptyMapping visits with
  | none => .panicked
  | some (_, some err) => .walkFailed err
  | some (mapping, none) => .dumped (selectDumper config) mapping

/-! ## Standard library: sort -/

/-- The inner loop of the library's `insertionSort`:
`for j := i; j > 0 && data.Less(j, j-1); j-- { data.Swap(j, j-1) }`. -/
def sort.insertionInner (data : AssetsMapping) : Nat → Option AssetsMapping
  | 0 => some data
  | j + 1 =>
    match data.Less (j + 1) j with
    | none => none
    | some false => some data
    | some true =>
      match data.Swap (j + 1) j with
      | none => none
      | some data' => sort.insertionInner data' j

/-- The outer loop of `insertionSort`, at index `i` with `k` iterations left:
`for i := 1; i < n; i++ { ... }`. -/
def sort.insertionOuter (data : AssetsMapping) (i : Nat) : Nat → Option AssetsMapping
  | 0 => some data
  | k + 1 =>
    match sort.insertionInner data i with
    | none => none
    | some data' => sort.insertionOuter data' (i + 1) k

/-- The function `sort.Sort` on the collection, through its methods `Len`,
`Less` and `Swap`. The library sorts a short slice (up to 12 elements) by
`insertionSort`, which is the routine modelled here; on a longer slice it
partitions first, with the same contract: the result is in ascending order of
`Less`, and the order of elements that compare equal is not promised. -/
def sort.sortData (data : AssetsMapping) : Option AssetsMapping :=
  sort.insertionOuter data 1 (data.Len - 1)

/-! ## Standard library: map -/

/-- A Go `map[string]string`: each key occurs once. -/
abbrev GoMap := List (GoString × GoString)

/-- The assignment `m[k] = v`: an existing key is overwritten. -/
def GoMap.assign (m : GoMap) (k v : GoString) : GoMap :=
  (k, v) :: m.filter (fun p => p.1 ≠ k)

/-- The lookup `m[k]`, `none` for an absent key. -/
def GoMap.lookup (m : GoMap) (k : GoString) : Option GoString :=
  (m.find? (fun p => p.1 = k)).map (fun p => p.2)

/-- The keys of a map. -/
def GoMap.keys (m : GoMap) : List GoString := m.map (fun p => p.1)

/-! ## Standard library: unicode/utf8 and encoding/json -/

/-- The table `first` of package `utf8` for a leading byte of 0x80 and above:
the size of the sequence it starts and the range accepted for the second byte;
size 0 marks a byte that starts no sequence. -/
def utf8.first (b : Nat) : Nat × Nat × Nat :=
  if 0xC2 ≤ b ∧ b ≤ 0xDF then (2, 0x80, 0xBF)
  else if b = 0xE0 then (3, 0xA0, 0xBF)
  else if b = 0xED then (3, 0x80, 0x9F)
  else if 0xE1 ≤ b ∧ b ≤ 0xEF then (3, 0x80, 0xBF)
  else if b = 0xF0 then (4, 0x90, 0xBF)
  else if 0xF1 ≤ b ∧ b ≤ 0xF3 then (4, 0x80, 0xBF)
  else if b = 0xF4 then (4, 0x80, 0x8F)
  else (0, 0, 0)

/-- The test `lo <= c && c <= hi` on a byte. -/
def utf8.inRange (lo hi : Nat) (c : Char) : Bool :=
  decide (lo ≤ c.toNat) && decide (c.toNat ≤ hi)

/-- The size `utf8.DecodeRuneInString` reports for the sequence at the head of a
non-empty string: `some size` for a well-formed one, `none` when the result is
`(RuneError, 1)`, an invalid byte. -/
def utf8.decodeSize : GoString → Option Nat
  | [] => none
  | s0 :: rest =>
    if s0.toNat < 0x80 then some 1
    else
      match utf8.first s0.toNat, rest with
      | (2, lo, hi), s1 :: _ => if utf8.inRange lo hi s1 then some 2 else none
      | (3, lo, hi), s1 :: s2 :: _ =>
        if utf8.inRange lo hi s1 && utf8.inRange 0x80 0xBF s2 then some 3 else none
      | (4, lo, hi), s1 :: s2 :: s3 :: _ =>
        if utf8.inRange lo hi s1 && utf8.inRange 0x80 0xBF s2 && utf8.inRange 0x80 0xBF s3
        then some 4 else none
      | _, _ => none

/-- The bytes of U+FFFD, the replacement character. -/
def json.replacement : GoString := [Char.ofNat 0xEF, Char.ofNat 0xBF, Char.ofNat 0xBD]

/-- The loop of the JSON string encoder, read through a JSON decoder: `copy`
bytes of a well-formed sequence are still to be copied; at the start of a
sequence an invalid byte is written as U+FFFD, any other sequence is written
so that a decoder gives it back (as it is, or as an escape). -/
def json.stringValueAux : Nat → GoString → GoString
  | _, [] => []
  | copy + 1, b :: rest => b :: json.stringValueAux copy rest
  | 0, b :: rest =>
    match utf8.decodeSize (b :: rest) with
    | none => json.replacement ++ json.stringValueAux 0 rest
    | some size => b :: json.stringValueAux (size - 1) rest

/-- The string a JSON decoder reads from the encoding of the Go string `s`:
`s` with every invalid UTF-8 byte replaced by U+FFFD. -/
def json.stringValue (s : GoString) : GoString := json.stringValueAux 0 s

/-- The function `utf8.ValidString`, as the same loop. -/
def utf8.validAux : Nat → GoString → Bool
  | _, [] => true
  | copy + 1, _ :: rest => utf8.validAux copy rest
  | 0, b :: rest =>
    match utf8.decodeSize (b :: rest) with
    | none => false
    | some size => utf8.validAux (size - 1) rest

/-- The function `utf8.ValidString`. -/
def utf8.ValidString (s : GoString) : Bool := utf8.validAux 0 s

/-- A JSON object as it stands in a file: its members in order, each a key and
a string value as a decoder reads them. -/
abbrev JsonObject := List (GoString × GoString)

/-- The call `json.MarshalIndent(srcMap, "", "  ")` on a `map[string]string`,
as the object a decoder reads from the text: one member per key of the map, in
ascending order of the keys, key and value encoded as JSON strings. The layout
and the escapes are not kept: a decoder undoes them. -/
def json.MarshalIndent (m : GoMap) : JsonObject :=
  (m.insertionSort (fun a b => strLess b.1 a.1 = false)).map
    (fun p => (json.stringValue p.1, json.stringValue p.2))

/-! ## The JSON dumper -/

/-- The map `srcMap` that `_JsonMappingDumper.Dump` fills in its loop and
passes to `json.MarshalIndent`. -/
def JsonMappingDumper.srcMap (mapping : AssetsMapping) : GoMap :=
  mapping.Mappings.foldl (fun srcMap m => srcMap.assign m.Src m.Target) []

/-! ## The Go-package dumper -/

/-- The method `GetPkgPath`; `goPath` is the value of `os.Getenv("GOPATH")`.
The result is `(pkgName, targetPath)`. -/
def GoPkgMappingDumper.GetPkgPath (d : GoPkgMappingDumper) (goPath : GoString) :
    GoString × GoString :=
  if d.pkgNameRelative ≠ [] then
    (d.pkgNameRelative, path.Join [d.pkgNameRelative, "assets_gen.go".toList])
  else if d.pkgName = [] ∨ d.pkgName = ".".toList ∨ d.pkgName = "main".toList then
    ("main".toList, "assets_gen.go".toList)
  else
    (path.Base d.pkgName,
      path.Join [goPath, "src".toList, d.pkgName, "assets_gen.go".toList])

/-- The template `tmplAssetsMapping` executed on a collection: the text outside
the actions is copied, `.PkgName`, `.Src` and `.Target` are printed as they
are, and the body of `range` is repeated for each entry in order. -/
def tmAssetsMapping.Execute (data : AssetsMapping) : GoString :=
  ("// This file is generated by GoBuildWeb\n" ++
    "// Containing all the assets mapping data for your router reverse lookup\n" ++
    "// Better not to edit this.\n\npackage ").toList ++ data.PkgName ++
  "\n\nvar allAssetsMapping = map[string]string\x7b\n    ".toList ++
  (data.Mappings.map (fun m =>
    "\"".toList ++ m.Src ++ "\": \"".toList ++ m.Target ++ "\",\n    ".toList)).flatten ++
  "\n\x7d\n".toList

/-- What a dumper writes. -/
inductive Artifact where
  /-- The file `path` receives the indented JSON text of `object`. -/
  | jsonFile (path : GoString) (object : JsonObject)
  /-- The file `path` receives `text`, and is then handed to `gofmt -w`. -/
  | goFile (path : GoString) (text : GoString)
  deriving DecidableEq, Repr

/-- The object `_JsonMappingDumper.Dump` emits: the encoding of `srcMap`. -/
def JsonMappingDumper.emitted (mapping : AssetsMapping) : JsonObject :=
  json.MarshalIndent (JsonMappingDumper.srcMap mapping)

/-- The method `_JsonMappingDumper.Dump`, when the file can be written. -/
def JsonMappingDumper.Dump (d : JsonMappingDumper) (mapping : AssetsMapping) : Artifact :=
  .jsonFile d.jsonFile (JsonMappingDumper.emitted mapping)

/-- The collection `_GoPkgMappingDumper.Dump` passes to the template: the
package name set, then sorted. -/
def GoPkgMappingDumper.sorted (d : GoPkgMappingDumper) (goPath : GoString)
    (mapping : AssetsMapping) : Option AssetsMapping :=
  sort.sortData { mapping with PkgName := (d.GetPkgPath goPath).1 }

/-- The method `_GoPkgMappingDumper.Dump`, when the file can be created. -/
def GoPkgMappingDumper.Dump (d : GoPkgMappingDumper) (goPath : GoString)
    (mapping : AssetsMapping) : Option Artifact :=
  match d.sorted goPath mapping with
  | none => none
  | some data => some (.goFile (d.GetPkgPath goPath).2 (tmAssetsMapping.Execute data))

/-! ## Notions used in the statements -/

/-- A name a directory entry can have: not empty, not `.` or `..`, no slash. -/
def validName (s : GoString) : Prop :=
  s ≠ [] ∧ s ≠ ['.'] ∧ s ≠ ['.', '.'] ∧ '/' ∉ s

instance (s : GoString) : Decidable (validName s) := by
  unfold validName; infer_instance

/-- The first element of a slash-separated path: `strings.Split(p, "/")[0]`. -/
def firstSegment (p : GoString) : GoString := (strings.Split p).headD []

/-- The entries a walk of `public` visits: every path is the root itself or
lies below it, and no path is visited twice. -/
def walkOfPublic (visits : List WalkVisit) : Prop :=
  (∀ w ∈ visits, w.name = "public".toList ∨
      strings.HasPrefix w.name "public/".toList = true) ∧
    (visits.map (fun w => w.name)).Nodup

instance (visits : List WalkVisit) : Decidable (walkOfPublic visits) := by
  unfold walkOfPublic; infer_instance

/-- The entry `x` put into a prefix that is given last element first: it moves
towards the front while it is smaller than the entry before it. -/
def insertBack (x : AssetsMappingItem) : List AssetsMappingItem → List AssetsMappingItem
  | [] => [x]
  | y :: q => if strLess x.Src y.Src then y :: insertBack x q else x :: y :: q

/-- The entries of `s` put one after the other into the prefix `q`. -/
def insertAll : List AssetsMappingItem → List AssetsMappingItem → List AssetsMappingItem
  | q, [] => q
  | q, x :: s => insertAll (insertBack x q) s

/-- Ascending order of `Src`: no later entry has a smaller `Src`. -/
def ascendingSrc (l : List AssetsMappingItem) : Prop :=
  l.Pairwise (fun a b => strLess b.Src a.Src = false)

instance (l : List AssetsMappingItem) : Decidable (ascendingSrc l) := by
  unfold ascendingSrc; infer_instance

/-! ## Specification-side definitions -/

/-- The last path segment of `p`: the last non-empty element between slashes,
so that trailing slashes do not count; a path of slashes only has no such
element and its last element is the root `/`. -/
def lastSegment (p : GoString) : GoString :=
  match ((strings.Split p).filter (fun s => s ≠ [])).getLast? with
  | some s => s
  | none => ['/']

/-- The target resolution as the specification words it, three tiers, first
match wins: an explicit relative location, used as the name as it is, with
`assets_gen.go` joined to it; else, for a configured name that is not empty
and not one of the sentinels `.` and `main`, the last path segment of the name
and `assets_gen.go` joined to `GOPATH`, `src` and the name; else the default. -/
def GetPkgPath_spec (pkgName pkgNameRelative goPath : GoString) : GoString × GoString :=
  if pkgNameRelative ≠ [] then
    (pkgNameRelative, path.Join [pkgNameRelative, "assets_gen.go".toList])
  else if pkgName ≠ [] ∧ pkgName ≠ ".".toList ∧ pkgName ≠ "main".toList then
    (lastSegment pkgName,
      path.Join [goPath, "src".toList, pkgName, "assets_gen.go".toList])
  else
    ("main".toList, "assets_gen.go".toList)

/-- The pairs of the map `srcMap` are the `(Src, Target)` pairs of the
collection, as sets. -/
def srcMapRoundTrip (mapping : AssetsMapping) : Prop :=
  ∀ p : GoString × GoString,
    p ∈ JsonMappingDumper.srcMap mapping ↔ ∃ it ∈ mapping.Mappings, p = (it.Src, it.Target)

/-- The JSON round trip for one collection: the (key, value) pairs of the
object in the file `Dump` writes are the `(Src, Target)` pairs of the
collection, as sets. -/
def jsonRoundTrip (mapping : AssetsMapping) : Prop :=
  ∀ (d : JsonMappingDumper) (path : GoString) (object : JsonObject),
    d.Dump mapping = .jsonFile path object →
      ∀ p : GoString × GoString,
        p ∈ object ↔ ∃ it ∈ mapping.Mappings, p = (it.Src, it.Target)

/-- Every `Src` and every `Target` is valid UTF-8. -/
def allValidUTF8 (l : List AssetsMappingItem) : Prop :=
  ∀ it ∈ l, utf8.ValidString it.Src = true ∧ utf8.ValidString it.Target = true

instance (l : List AssetsMappingItem) : Decidable (allValidUTF8 l) := by
  unfold allValidUTF8; infer_instance

/-- Entries with the same `Src` have the same `Target`. -/
def srcDeterminesTarget (l : List AssetsMappingItem) : Prop :=
  ∀ a ∈ l, ∀ b ∈ l, a.Src = b.Src → a.Target = b.Target

instance (l : List AssetsMappingItem) : Decidable (srcDeterminesTarget l) := by
  unfold srcDeterminesTarget; infer_instance

/-! ## Concrete inputs -/

/-- A 35-byte fingerprint prefix. -/
def fpA : GoString := "fpAAAAAAAAAAAAAAAAAAAAAAAAAAAAAAAAA".toList

/-- Another 35-byte fingerprint prefix. -/
def fpB : GoString := "fpBBBBBBBBBBBBBBBBBBBBBBBBBBBBBBBBB".toList

/-- A regular file visited without error. -/
def fileVisit (name base : GoString) : WalkVisit :=
  { name := name, info := some { Name := base, IsDir := false }, err := none }

/-- A directory visited without error. -/
def dirVisit (name base : GoString) : WalkVisit :=
  { name := name, info := some { Name := base, IsDir := true }, err := none }

/-- A walk of a small tree: `README.md`, `images/<fpA>logo.png` and
`javascripts/app/<fpB>main.js`. -/
def sampleVisits : List WalkVisit :=
  [ dirVisit "public".toList "public".toList,
    fileVisit "public/README.md".toList "README.md".toList,
    dirVisit "public/images".toList "images".toList,
    fileVisit ("public/images/".toList ++ fpA ++ "logo.png".toList) (fpA ++ "logo.png".toList),
    dirVisit "public/javascripts".toList "javascripts".toList,
    dirVisit "public/javascripts/app".toList "app".toList,
    fileVisit ("public/javascripts/app/".toList ++ fpB ++ "main.js".toList)
      (fpB ++ "main.js".toList) ]

/-- The collection built from `sampleVisits`. -/
def sampleMapping : AssetsMapping :=
  { PkgName := [],
    Mappings :=
      [ ⟨"images/logo.png".toList, "images/".toList ++ fpA ++ "logo.png".toList⟩,
        ⟨"javascripts/app/main.js".toList,
          "javascripts/app/".toList ++ fpB ++ "main.js".toList⟩ ] }

/-- A configuration with both a JSON path and a package name. -/
def bothConfig : Config :=
  { AssetsMappingJson := "assets.json".toList,
    AssetsMappingPkg := "github.com/acme/web".toList,
    AssetsMappingPkgRelative := [] }

/-- A file below `images` whose base name begins with "fp" and is shorter than
35 bytes. -/
def shortFpVisit : WalkVisit :=
  fileVisit "public/images/fp.txt".toList "fp.txt".toList

/-- The single visit of a walk whose root does not exist: `Walk` calls the
callback once, with the error of `os.Lstat` and no file information. -/
def missingRootVisit : WalkVisit :=
  { name := "public".toList, info := none,
    err := some "lstat public: no such file or directory".toList }

/-- Two entries with the same `Src` and different `Target`. -/
def dupMapping : AssetsMapping :=
  { PkgName := [],
    Mappings := [ ⟨"images".toList, "images/".toList ++ fpA⟩,
                  ⟨"images".toList, "images/".toList ++ fpB⟩ ] }

/-- The entries of `dupMapping` in the other order. -/
def dupMappingSwapped : AssetsMapping :=
  { PkgName := [],
    Mappings := [ ⟨"images".toList, "images/".toList ++ fpB⟩,
                  ⟨"images".toList, "images/".toList ++ fpA⟩ ] }

/-- The dumper into package `main` in the current directory. -/
def mainDumper : GoPkgMappingDumper := { pkgName := [], pkgNameRelative := [] }

/-- The entries of `sampleMapping` in the other order. -/
def sampleMappingSwapped : AssetsMapping :=
  { PkgName := "old".toList,
    Mappings :=
      [ ⟨"javascripts/app/main.js".toList,
          "javascripts/app/".toList ++ fpB ++ "main.js".toList⟩,
        ⟨"images/logo.png".toList, "images/".toList ++ fpA ++ "logo.png".toList⟩ ] }

/-- A walk of `images` holding two files whose base names are exactly the
35-byte prefixes `fpA` and `fpB`. -/
def dupVisits : List WalkVisit :=
  [ dirVisit "public".toList "public".toList,
    dirVisit "public/images".toList "images".toList,
    fileVisit ("public/images/".toList ++ fpA) fpA,
    fileVisit ("public/images/".toList ++ fpB) fpB ]

/-! ## The interface call and the output of `Build` -/

/-- The interface call `dumper.Dump(mapping)`, when the files can be written;
`goPath` is the value of `GOPATH`. -/
def MappingDumper.Dump (dumper : MappingDumper) (goPath : GoString)
    (mapping : AssetsMapping) : Option Artifact :=
  match dumper with
  | .json d => some (d.Dump mapping)
  | .goPkg d => d.Dump goPath mapping

/-- What a call of `Build` writes: nothing when the walk callback panics or the
walk error is returned, otherwise what the chosen dumper writes. -/
def BuildResult.artifact (goPath : GoString) : BuildResult → Option Artifact
  | .panicked => none
  | .walkFailed _ => none
  | .dumped dumper mapping => dumper.Dump goPath mapping

/-- The entries the walk callback adds on one visit, seen from the empty
collection (none when it adds nothing or panics). -/
def acceptedEntries (v : WalkVisit) : List AssetsMappingItem :=
  match walkFn emptyMapping v with
  | some (m, _) => m.Mappings
  | none => []

/-- The three comment lines at the head of the generated file. -/
def generatedBanner : GoString :=
  ("// This file is generated by GoBuildWeb\n" ++
    "// Containing all the assets mapping data for your router reverse lookup\n" ++
    "// Better not to edit this.\n").toList

/-- One element of the map literal: `"<Src>": "<Target>",`. -/
def mapElement (it : AssetsMappingItem) : GoString :=
  "\"".toList ++ it.Src ++ "\": \"".toList ++ it.Target ++ "\",".toList

/-- The generated module as the specification describes it: the banner, the
package clause with the resolved name, and the one map literal
`allAssetsMapping` with one element per entry, each on its line. -/
def moduleText (name : GoString) (entries : List AssetsMappingItem) : GoString :=
  generatedBanner ++ "\npackage ".toList ++ name ++
    "\n\nvar allAssetsMapping = map[string]string\x7b\n    ".toList ++
    (entries.map (fun it => mapElement it ++ "\n    ".toList)).flatten ++
    "\n\x7d\n".toList

/-- The byte 0xFF, which occurs in no UTF-8 sequence. -/
def byteFF : Char := Char.ofNat 0xFF

/-- A walk of `javascripts` holding one fingerprinted file whose original name
`\xffx.js` begins with an invalid UTF-8 byte. -/
def invalidVisits : List WalkVisit :=
  [ dirVisit "public".toList "public".toList,
    dirVisit "public/javascripts".toList "javascripts".toList,
    fileVisit ("public/javascripts/".toList ++ fpA ++ byteFF :: "x.js".toList)
      (fpA ++ byteFF :: "x.js".toList) ]

/-- The collection built from `invalidVisits`. -/
def invalidMapping : AssetsMapping :=
  { PkgName := [],
    Mappings :=
      [ ⟨"javascripts/".toList ++ byteFF :: "x.js".toList,
          "javascripts/".toList ++ fpA ++ byteFF :: "x.js".toList⟩ ] }

/-! ## Strings and paths -/

theorem split_ne_nil (s : GoString) : strings.Split s ≠ [] := by
  induction s with
  | nil => simp [strings.Split]
  | cons c cs ih =>
    unfold strings.Split
    split
    · simp
    · split <;> simp

theorem split_noSlash (s : GoString) (h : '/' ∉ s) : strings.Split s = [s] := by
  induction s with
  | nil => rfl
  | cons c cs ih =>
    have hc : c ≠ '/' := fun e => h (by simp [e])
    have hcs : '/' ∉ cs := fun e => h (by simp [e])
    simp [strings.Split, hc, ih hcs]

theorem split_append_slash (s t : GoString) (h : '/' ∉ s) :
    strings.Split (s ++ '/' :: t) = s :: strings.Split t := by
  induction s with
  | nil => simp [strings.Split]
  | cons c cs ih =>
    have hc : c ≠ '/' := fun e => h (by simp [e])
    have hcs : '/' ∉ cs := fun e => h (by simp [e])
    simp [strings.Split, hc, ih hcs]

theorem split_join (segs : List GoString) (hne : segs ≠ [])
    (h : ∀ s ∈ segs, '/' ∉ s) : strings.Split (strings.Join segs) = segs := by
  induction segs with
  | nil => exact absurd rfl hne
  | cons a rest ih =>
    cases rest with
    | nil => simpa [strings.Join] using split_noSlash a (h a (by simp))
    | cons b rest =>
      have ha : '/' ∉ a := h a (by simp)
      have hr : ∀ s ∈ b :: rest, '/' ∉ s := fun s hs => h s (by simp [hs])
      simp only [strings.Join]
      rw [split_append_slash _ _ ha, ih (by simp) hr]

theorem cleanStep_valid (out : List GoString) (e : GoString) (he : validName e) :
    path.cleanStep false out e = e :: out := by
  obtain ⟨h1, h2, h3, _⟩ := he
  simp [path.cleanStep, h1, h2, h3]

theorem foldl_cleanStep_valid (segs out : List GoString) (h : ∀ s ∈ segs, validName s) :
    segs.foldl (path.cleanStep false) out = segs.reverse ++ out := by
  induction segs generalizing out with
  | nil => rfl
  | cons a rest ih =>
    have ha := h a (by simp)
    have hr : ∀ s ∈ rest, validName s := fun s hs => h s (by simp [hs])
    simp [List.foldl, cleanStep_valid out a ha, ih _ hr]

theorem join_head (segs : List GoString) (a : GoString) (c : Char) (cs : GoString)
    (ha : a = c :: cs) : strings.Join (a :: segs) = c :: (strings.Join (cs :: segs)) := by
  subst ha
  cases segs <;> simp [strings.Join]

theorem clean_join_valid (segs : List GoString) (hne : segs ≠ [])
    (h : ∀ s ∈ segs, validName s) : path.Clean (strings.Join segs) = strings.Join segs := by
  have hs : ∀ s ∈ segs, '/' ∉ s := fun s hs => (h s hs).2.2.2
  cases segs with
  | nil => exact absurd rfl hne
  | cons a rest =>
    obtain ⟨ha1, _, _, ha4⟩ := h a (by simp)
    cases a with
    | nil => exact absurd rfl ha1
    | cons c cs =>
      have hc : c ≠ '/' := fun e => ha4 (by simp [e])
      have hj := join_head rest (c :: cs) c cs rfl
      have hfold := foldl_cleanStep_valid ((c :: cs) :: rest) [] h
      unfold path.Clean
      simp only [split_join _ hne hs]
      rw [hj]
      simp only [List.head?_cons, Option.some.injEq, hc, decide_False]
      rw [hfold]
      simp [hj]

theorem pathJoin_valid (segs : List GoString) (hne : segs ≠ [])
    (h : ∀ s ∈ segs, validName s) : path.Join segs = strings.Join segs := by
  have hf : segs.filter (fun e => decide (e ≠ [])) = segs := by
    rw [List.filter_eq_self]
    intro s hs
    simpa using (h s hs).1
  unfold path.Join
  simp only [hf, hne, if_false]
  exact clean_join_valid segs hne h

/-! ## The walk callback -/

theorem walkFn_shape (m m' : AssetsMapping) (v : WalkVisit) (e : Option GoError)
    (h : walkFn m v = some (m', e)) :
    e = none ∧ m'.PkgName = m.PkgName ∧
      (m'.Mappings = m.Mappings ∨
        ((∃ src, m'.Mappings = m.Mappings ++ [⟨src, v.name.drop 7⟩]) ∧
          7 ≤ v.name.length ∧ isCategory (firstSegment (v.name.drop 7)) = true)) := by
  unfold walkFn at h
  split at h
  · simp at h; obtain ⟨rfl, rfl⟩ := h; simp
  · simp at h
  · split at h
    · simp at h; obtain ⟨rfl, rfl⟩ := h; simp
    · split at h
      · simp at h
      · rename_i name hname
        have hlen : 7 ≤ v.name.length ∧ name = v.name.drop 7 := by
          unfold sliceFrom at hname
          split at hname
          · rename_i hl
            simp at hname
            exact ⟨by simpa using hl, hname.symm⟩
          · simp at hname
        obtain ⟨hl, rfl⟩ := hlen
        simp only at h
        split at h
        · rename_i hc
          split at h
          · simp at h
          · split at h
            · simp at h
            · simp at h
              obtain ⟨rfl, rfl⟩ := h
              refine ⟨rfl, rfl, Or.inr ⟨⟨_, rfl⟩, hl, ?_⟩⟩
              rw [Bool.and_eq_true] at hc
              have h1 := hc.1
              unfold firstSegment
              split at h1
              · simp at h1
              · rename_i p0 ps hp
                simp [hp, h1]
        · simp at h; obtain ⟨rfl, rfl⟩ := h; simp

theorem walk_append {σ : Type} (fn : σ → WalkVisit → Option (σ × Option GoError))
    (s : σ) (a b : List WalkVisit) :
    filepath.Walk fn s (a ++ b) =
      match filepath.Walk fn s a with
      | none => none
      | some (s', some e) => some (s', some e)
      | some (s', none) => filepath.Walk fn s' b := by
  induction a generalizing s with
  | nil => simp [filepath.Walk]
  | cons v vs ih =>
    simp only [List.cons_append, filepath.Walk]
    cases hfn : fn s v with
    | none => simp
    | some r =>
      obtain ⟨s1, e1⟩ := r
      cases e1 with
      | none => simp [ih]
      | some e => simp

theorem walk_shape (vs : List WalkVisit) (m m' : AssetsMapping) (e : Option GoError)
    (h : filepath.Walk walkFn m vs = some (m', e)) :
    e = none ∧ m'.PkgName = m.PkgName ∧
      ∃ added, m'.Mappings = m.Mappings ++ added ∧
        ∀ it ∈ added, isCategory (firstSegment it.Target) = true ∧
          ∃ w ∈ vs, 7 ≤ w.name.length ∧ it.Target = w.name.drop 7 := by
  induction vs generalizing m with
  | nil =>
    simp [filepath.Walk] at h
    obtain ⟨rfl, rfl⟩ := h
    exact ⟨rfl, rfl, [], by simp, by simp⟩
  | cons v vs ih =>
    simp only [filepath.Walk] at h
    cases hfn : walkFn m v with
    | none => simp [hfn] at h
    | some r =>
      obtain ⟨m1, e1⟩ := r
      obtain ⟨rfl, hp, hm⟩ := walkFn_shape m m1 v e1 hfn
      simp only [hfn] at h
      obtain ⟨he, hp2, added, hadd, hall⟩ := ih m1 h
      refine ⟨he, hp2.trans hp, ?_⟩
      rcases hm with hm | ⟨⟨src, hm⟩, hl, hc⟩
      · refine ⟨added, by rw [hadd, hm], ?_⟩
        intro it hit
        obtain ⟨h1, w, hw, h2⟩ := hall it hit
        exact ⟨h1, w, by simp [hw], h2⟩
      · refine ⟨⟨src, v.name.drop 7⟩ :: added, by rw [hadd, hm]; simp, ?_⟩
        intro it hit
        rcases List.mem_cons.1 hit with rfl | hit
        · exact ⟨hc, v, by simp, hl, rfl⟩
        · obtain ⟨h1, w, hw, h2⟩ := hall it hit
          exact ⟨h1, w, by simp [hw], h2⟩

theorem validName_of_isCategory (c : GoString) (h : isCategory c = true) : validName c := by
  unfold isCategory at h
  simp only [Bool.or_eq_true, beq_iff_eq] at h
  rcases h with (rfl | rfl) | rfl <;> decide

theorem sliceFrom_append (p s : GoString) (n : Nat) (h : p.length = n) :
    sliceFrom (p ++ s) n = some s := by
  subst h
  simp [sliceFrom]

theorem set_last (l : List GoString) (a b : GoString) :
    (l ++ [a]).set ((l ++ [a]).length - 1) b = l ++ [b] := by
  induction l with
  | nil => rfl
  | cons x xs ih =>
    simp only [List.cons_append, List.length_cons, Nat.add_sub_cancel] at ih ⊢
    cases xs with
    | nil => rfl
    | cons y ys =>
      simp only [List.cons_append, List.length_cons, Nat.add_sub_cancel] at ih ⊢
      rw [List.set_cons_succ, ih]

theorem hasPrefix_append (s p t : GoString) (h : strings.HasPrefix s p = true) :
    strings.HasPrefix (s ++ t) p = true := by
  unfold strings.HasPrefix at *
  rw [List.isPrefixOf_iff_prefix] at *
  exact h.trans (List.prefix_append s t)

/-- The callback on a fingerprinted file below a category directory: the entry
added has the path below the root as `Target` and the same path with the 35
bytes removed from the base name as `Src`. -/
theorem walkFn_fingerprinted (m : AssetsMapping) (cat fp orig : GoString)
    (sub : List GoString)
    (hcat : isCategory cat = true) (hsub : ∀ d ∈ sub, validName d)
    (hlen : fp.length = 35) (hfp : strings.HasPrefix fp "fp".toList = true)
    (hslash : '/' ∉ fp) (horig : validName orig) :
    walkFn m ⟨"public/".toList ++ strings.Join (cat :: sub ++ [fp ++ orig]),
        some ⟨fp ++ orig, false⟩, none⟩ =
      some (m.AddItem (strings.Join (cat :: sub ++ [orig]))
        (strings.Join (cat :: sub ++ [fp ++ orig])), none) := by
  have hvc := validName_of_isCategory cat hcat
  have hsplit : strings.Split (strings.Join (cat :: sub ++ [fp ++ orig])) =
      cat :: sub ++ [fp ++ orig] := by
    apply split_join _ (by simp)
    intro s hs
    simp only [List.mem_cons, List.mem_append, List.mem_singleton, List.not_mem_nil,
      or_false] at hs
    rcases hs with (rfl | hs) | rfl
    · exact hvc.2.2.2
    · exact (hsub s hs).2.2.2
    · simp only [List.mem_append, not_or]
      exact ⟨hslash, horig.2.2.2⟩
  have hvalid : ∀ s ∈ cat :: sub ++ [orig], validName s := by
    intro s hs
    simp only [List.mem_cons, List.mem_append, List.mem_singleton, List.not_mem_nil,
      or_false] at hs
    rcases hs with (rfl | hs) | rfl
    · exact hvc
    · exact hsub s hs
    · exact horig
  have hjoin := pathJoin_valid (cat :: sub ++ [orig]) (by simp) hvalid
  have hlast : (cat :: sub ++ [fp ++ orig]).getLast? = some (fp ++ orig) :=
    List.getLast?_concat (cat :: sub)
  have hset := set_last (cat :: sub) (fp ++ orig) orig
  simp only [List.cons_append] at hlast hset hjoin hsplit
  unfold walkFn
  simp only [sliceFrom_append "public/".toList _ _ rfl, List.cons_append, hsplit, hcat,
    hasPrefix_append fp _ orig hfp, Bool.and_self, if_true, hlast,
    sliceFrom_append fp orig 35 hlen, hset, hjoin]
  simp

theorem drop_ne_of_name_ne (w : WalkVisit) (rel : GoString)
    (hw : w.name = "public".toList ∨ strings.HasPrefix w.name "public/".toList = true)
    (hne : w.name ≠ "public/".toList ++ rel) (hl : 7 ≤ w.name.length) :
    w.name.drop 7 ≠ rel := by
  rcases hw with hw | hw
  · rw [hw] at hl; simp at hl
  · unfold strings.HasPrefix at hw
    rw [List.isPrefixOf_iff_prefix] at hw
    obtain ⟨t, ht⟩ := hw
    intro hd
    apply hne
    rw [← ht] at hd ⊢
    rw [show (7 : Nat) = ("public/".toList).length from rfl, List.drop_left] at hd
    rw [hd]

theorem filter_added_nil (vs : List WalkVisit) (rel : GoString)
    (added : List AssetsMappingItem)
    (hroot : ∀ w ∈ vs, w.name = "public".toList ∨
      strings.HasPrefix w.name "public/".toList = true)
    (hne : ∀ w ∈ vs, w.name ≠ "public/".toList ++ rel)
    (hadd : ∀ it ∈ added, isCategory (firstSegment it.Target) = true ∧
          ∃ w ∈ vs, 7 ≤ w.name.length ∧ it.Target = w.name.drop 7) :
    added.filter (fun it => decide (it.Target = rel)) = [] := by
  rw [List.filter_eq_nil_iff]
  intro it hit
  obtain ⟨_, w, hw, hl, ht⟩ := hadd it hit
  simp only [decide_eq_true_eq]
  rw [ht]
  exact drop_ne_of_name_ne w rel (hroot w hw) (hne w hw) hl

theorem walk_of_build (config : Config) (isProduction : Bool) (visits : List WalkVisit)
    (dumper : MappingDumper) (mapping : AssetsMapping)
    (h : Build config isProduction visits = .dumped dumper mapping) :
    filepath.Walk walkFn emptyMapping visits = some (mapping, none) ∧
      dumper = selectDumper config := by
  unfold Build at h
  split at h
  · simp at h
  · simp at h
  · rename_i hw
    simp only [BuildResult.dumped.injEq] at h
    rw [hw, ← h.2, h.1]
    simp

/-- C1. For a regular file visited by the walk whose path below `public` is
`cat/sub.../fp·orig`, with `cat` one of images, javascripts, stylesheets, `fp`
a 35-byte prefix beginning with "fp" and `orig` a non-empty name other than `.`
and `..`, the collection `Build` hands to the dumper has exactly one entry whose
`Target` is that path, and its `Src` is the same path with the 35 bytes removed
from the base name only, all directory segments unchanged. -/
theorem build_fingerprinted_entry (config : Config) (isProduction : Bool)
    (visits : List WalkVisit) (cat fp orig : GoString) (sub : List GoString)
    (dumper : MappingDumper) (mapping : AssetsMapping)
    (hwalk : walkOfPublic visits)
    (hcat : isCategory cat = true) (hsub : ∀ d ∈ sub, validName d)
    (hlen : fp.length = 35) (hfp : strings.HasPrefix fp "fp".toList = true)
    (hslash : '/' ∉ fp) (horig : validName orig)
    (hv : (⟨"public/".toList ++ strings.Join (cat :: sub ++ [fp ++ orig]),
        some ⟨fp ++ orig, false⟩, none⟩ : WalkVisit) ∈ visits)
    (hbuild : Build config isProduction visits = .dumped dumper mapping) :
    mapping.Mappings.filter
        (fun it => decide (it.Target = strings.Join (cat :: sub ++ [fp ++ orig]))) =
      [⟨strings.Join (cat :: sub ++ [orig]), strings.Join (cat :: sub ++ [fp ++ orig])⟩] := by
  obtain ⟨hroot, hnodup⟩ := hwalk
  have hfn := fun m => walkFn_fingerprinted m cat fp orig sub hcat hsub hlen hfp hslash horig
  have hw := (walk_of_build config isProduction visits dumper mapping hbuild).1
  generalize strings.Join (cat :: sub ++ [fp ++ orig]) = rel at *
  generalize hvdef : (⟨"public/".toList ++ rel, some ⟨fp ++ orig, false⟩, none⟩ : WalkVisit) = v
    at *
  have hvname : v.name = "public/".toList ++ rel := by rw [← hvdef]
  obtain ⟨pre, post, rfl⟩ := List.append_of_mem hv
  -- the other visits have other names
  rw [List.map_append, List.map_cons] at hnodup
  have hnd := List.nodup_middle.1 hnodup
  rw [List.nodup_cons] at hnd
  have hne : ∀ w ∈ pre ++ post, w.name ≠ "public/".toList ++ rel := by
    intro w hw heq
    apply hnd.1
    rw [hvname, ← List.map_append, ← heq]
    exact List.mem_map_of_mem _ hw
  have hroot1 : ∀ w ∈ pre, w.name = "public".toList ∨
      strings.HasPrefix w.name "public/".toList = true :=
    fun w hw => hroot w (by simp [hw])
  have hroot2 : ∀ w ∈ post, w.name = "public".toList ∨
      strings.HasPrefix w.name "public/".toList = true :=
    fun w hw => hroot w (by simp [hw])
  -- run the walk in three parts
  rw [walk_append] at hw
  cases h1 : filepath.Walk walkFn emptyMapping pre with
  | none => simp [h1] at hw
  | some r1 =>
    obtain ⟨m1, e1⟩ := r1
    obtain ⟨rfl, _, added1, hm1, hadd1⟩ := walk_shape pre emptyMapping m1 e1 h1
    simp only [h1, filepath.Walk, hfn m1] at hw
    obtain ⟨_, _, added2, hm2, hadd2⟩ := walk_shape post _ mapping none hw
    have hf1 := filter_added_nil pre rel added1 hroot1
      (fun w hw => hne w (by simp [hw])) hadd1
    have hf2 := filter_added_nil post rel added2 hroot2
      (fun w hw => hne w (by simp [hw])) hadd2
    rw [hm2]
    simp only [AssetsMapping.AddItem, hm1, emptyMapping, List.nil_append, List.filter_append,
      hf1, hf2, List.append_nil]
    simp [List.filter]

/-- C1, at a concrete tree: the walk of `sampleVisits` gives exactly one entry
for `javascripts/app/<fpB>main.js`, with `Src` `javascripts/app/main.js`. -/
theorem build_fingerprinted_entry_witness :
    sampleMapping.Mappings.filter
        (fun it => decide (it.Target =
          strings.Join ("javascripts".toList :: ["app".toList] ++ [fpB ++ "main.js".toList]))) =
      [⟨strings.Join ("javascripts".toList :: ["app".toList] ++ ["main.js".toList]),
        strings.Join ("javascripts".toList :: ["app".toList] ++ [fpB ++ "main.js".toList])⟩] :=
  build_fingerprinted_entry bothConfig true sampleVisits "javascripts".toList fpB
    "main.js".toList ["app".toList] (selectDumper bothConfig) sampleMapping
    (by decide) (by decide) (by decide) (by decide) (by decide) (by decide) (by decide)
    (by decide) (by decide)

/-! ## Byte-wise order -/

theorem strLess_iff_lex (a b : GoString) :
    strLess a b = true ↔ List.Lex (· < ·) a b := by
  induction a generalizing b with
  | nil =>
    cases b with
    | nil => simp [strLess, List.Lex.not_nil_right]
    | cons y bs => simp [strLess, List.Lex.nil]
  | cons x as ih =>
    cases b with
    | nil => simp [strLess, List.Lex.not_nil_right]
    | cons y bs =>
      unfold strLess
      by_cases hxy : x < y
      · simp only [hxy, if_true, true_iff]
        exact List.Lex.rel hxy
      · by_cases hyx : y < x
        · simp only [hxy, hyx, if_false, if_true, Bool.false_eq_true, false_iff]
          intro h
          cases h with
          | cons h => exact lt_irrefl _ hyx
          | rel h => exact hxy h
        · have hEq : x = y := le_antisymm (not_lt.1 hyx) (not_lt.1 hxy)
          subst hEq
          simp only [hxy, if_false, ih bs]
          exact List.Lex.cons_iff.symm

theorem strLess_asymm (a b : GoString) (h : strLess a b = true) : strLess b a = false := by
  rw [strLess_iff_lex] at h
  rw [Bool.eq_false_iff, Ne, strLess_iff_lex]
  exact (List.Lex.isAsymm (· < ·)).asymm a b h

theorem strLess_irrefl (a : GoString) : strLess a a = false := by
  cases h : strLess a a with
  | false => rfl
  | true => rw [strLess_asymm a a h] at h; exact absurd h (by simp)

theorem strLess_conn (a b c : GoString) (h : strLess a c = true) :
    strLess a b = true ∨ strLess b c = true := by
  rw [strLess_iff_lex] at *
  rw [strLess_iff_lex]
  exact (List.Lex.isOrderConnected (· < ·)).conn a b c h

theorem strLess_trichotomy (a b : GoString) (h1 : strLess a b = false)
    (h2 : strLess b a = false) : a = b := by
  rw [Bool.eq_false_iff, Ne, strLess_iff_lex] at h1 h2
  rcases (List.Lex.isTrichotomous (· < ·)).trichotomous a b with h | h | h
  · exact absurd h h1
  · exact h
  · exact absurd h h2

theorem strLess_negtrans (a b c : GoString) (h1 : strLess a b = false)
    (h2 : strLess b c = false) : strLess a c = false := by
  cases h : strLess a c with
  | false => rfl
  | true =>
    rcases strLess_conn a b c h with h' | h'
    · rw [h1] at h'; exact absurd h' (by simp)
    · rw [h2] at h'; exact absurd h' (by simp)

/-! ## Sorting by `Less` and `Swap` -/

theorem getElem?_mid (a : List AssetsMappingItem) (y : AssetsMappingItem)
    (t : List AssetsMappingItem) : (a ++ y :: t)[a.length]? = some y := by
  rw [List.getElem?_append_right (Nat.le_refl _)]
  simp

theorem getElem?_mid_succ (a : List AssetsMappingItem) (y x : AssetsMappingItem)
    (t : List AssetsMappingItem) : (a ++ y :: x :: t)[a.length + 1]? = some x := by
  rw [List.getElem?_append_right (by omega)]
  simp

theorem set_set_mid (a : List AssetsMappingItem) (y x : AssetsMappingItem)
    (t : List AssetsMappingItem) :
    ((a ++ y :: x :: t).set (a.length + 1) y).set a.length x = a ++ x :: y :: t := by
  induction a with
  | nil => rfl
  | cons b a ih => simp [ih]

theorem less_mid (n : GoString) (a : List AssetsMappingItem) (y x : AssetsMappingItem)
    (t : List AssetsMappingItem) :
    AssetsMapping.Less ⟨n, a ++ y :: x :: t⟩ (a.length + 1) a.length =
      some (strLess x.Src y.Src) := by
  unfold AssetsMapping.Less
  simp only [getElem?_mid_succ, getElem?_mid]

theorem swap_mid (n : GoString) (a : List AssetsMappingItem) (y x : AssetsMappingItem)
    (t : List AssetsMappingItem) :
    AssetsMapping.Swap ⟨n, a ++ y :: x :: t⟩ (a.length + 1) a.length =
      some ⟨n, a ++ x :: y :: t⟩ := by
  unfold AssetsMapping.Swap
  simp only [getElem?_mid_succ, getElem?_mid, set_set_mid]

theorem insertionInner_eq (n : GoString) (q : List AssetsMappingItem) (x : AssetsMappingItem)
    (s : List AssetsMappingItem) :
    sort.insertionInner ⟨n, q.reverse ++ x :: s⟩ q.length =
      some ⟨n, (insertBack x q).reverse ++ s⟩ := by
  induction q generalizing s with
  | nil => simp [sort.insertionInner, insertBack]
  | cons y q ih =>
    have hl := less_mid n q.reverse y x s
    have hs := swap_mid n q.reverse y x s
    rw [List.length_reverse] at hl hs
    simp only [List.length_cons, List.reverse_cons, List.append_assoc, List.singleton_append,
      sort.insertionInner, hl, insertBack]
    cases hlt : strLess x.Src y.Src with
    | false => simp
    | true =>
      simp only [hs, if_true]
      rw [ih (y :: s)]
      simp

theorem insertBack_length (x : AssetsMappingItem) (q : List AssetsMappingItem) :
    (insertBack x q).length = q.length + 1 := by
  induction q with
  | nil => rfl
  | cons y q ih =>
    unfold insertBack
    split <;> simp [ih]

theorem insertionOuter_eq (n : GoString) (q s : List AssetsMappingItem) :
    sort.insertionOuter ⟨n, q.reverse ++ s⟩ q.length s.length =
      some ⟨n, (insertAll q s).reverse⟩ := by
  induction s generalizing q with
  | nil => simp [sort.insertionOuter, insertAll]
  | cons x s ih =>
    simp only [List.length_cons, sort.insertionOuter, insertionInner_eq, insertAll]
    rw [← insertBack_length x q]
    exact ih (insertBack x q)

/-- The model of `sort.Sort` never indexes out of range, and its result is
the repeated insertion of the entries. -/
theorem sortData_eq (data : AssetsMapping) :
    sort.sortData data = some ⟨data.PkgName, (insertAll [] data.Mappings).reverse⟩ := by
  obtain ⟨n, l⟩ := data
  cases l with
  | nil => rfl
  | cons x s =>
    have h := insertionOuter_eq n [x] s
    simpa [sort.sortData, AssetsMapping.Len, insertAll, insertBack] using h

theorem insertBack_perm (x : AssetsMappingItem) (q : List AssetsMappingItem) :
    (insertBack x q).Perm (x :: q) := by
  induction q with
  | nil => exact List.Perm.refl _
  | cons y q ih =>
    unfold insertBack
    split
    · exact (List.Perm.cons y ih).trans (List.Perm.swap x y q)
    · exact List.Perm.refl _

theorem insertAll_perm (q s : List AssetsMappingItem) :
    (insertAll q s).Perm (s ++ q) := by
  induction s generalizing q with
  | nil => simp [insertAll]
  | cons x s ih =>
    simp only [insertAll]
    refine (ih _).trans ?_
    refine (List.Perm.append_left s (insertBack_perm x q)).trans ?_
    simp

theorem insertBack_descending (x : AssetsMappingItem) (q : List AssetsMappingItem)
    (h : q.Pairwise (fun a b => strLess a.Src b.Src = false)) :
    (insertBack x q).Pairwise (fun a b => strLess a.Src b.Src = false) := by
  induction q with
  | nil => simp [insertBack]
  | cons y q ih =>
    rw [List.pairwise_cons] at h
    unfold insertBack
    split
    · rename_i hlt
      rw [List.pairwise_cons]
      refine ⟨?_, ih h.2⟩
      intro z hz
      rcases List.mem_cons.1 ((insertBack_perm x q).mem_iff.1 hz) with rfl | hz
      · exact strLess_asymm _ _ hlt
      · exact h.1 z hz
    · rename_i hlt
      have hxy : strLess x.Src y.Src = false := by simpa using hlt
      rw [List.pairwise_cons]
      refine ⟨?_, List.pairwise_cons.2 h⟩
      intro z hz
      rcases List.mem_cons.1 hz with rfl | hz
      · exact hxy
      · exact strLess_negtrans _ _ _ hxy (h.1 z hz)

theorem insertAll_descending (q s : List AssetsMappingItem)
    (h : q.Pairwise (fun a b => strLess a.Src b.Src = false)) :
    (insertAll q s).Pairwise (fun a b => strLess a.Src b.Src = false) := by
  induction s generalizing q with
  | nil => simpa [insertAll] using h
  | cons x s ih => exact ih _ (insertBack_descending x q h)

theorem sortData_spec (data : AssetsMapping) :
    ∃ l, sort.sortData data = some ⟨data.PkgName, l⟩ ∧ l.Perm data.Mappings ∧
      ascendingSrc l := by
  refine ⟨_, sortData_eq data, ?_, ?_⟩
  · refine (List.reverse_perm _).trans ?_
    simpa using insertAll_perm [] data.Mappings
  · unfold ascendingSrc
    rw [List.pairwise_reverse]
    exact insertAll_descending [] data.Mappings List.Pairwise.nil

/-! ## Files the walk must not accept, and walk errors -/

/-- C2, failing input: on `public/images/fp.txt` (base name `fp.txt`, six bytes,
beginning with "fp") the slice `parts[len(parts)-1][35:]` is out of range: the
callback panics, and so does `Build`; nothing is skipped silently. -/
theorem short_fp_name_panics :
    walkFn emptyMapping shortFpVisit = none ∧
      Build bothConfig false [shortFpVisit] = .panicked := by
  decide

/-- C3, failing input: when the root is missing the walk reports the error to
the callback, the callback returns `nil`, and `Build` goes on to call the
dumper with the collection built so far instead of returning the error. -/
theorem walk_error_not_returned :
    walkFn emptyMapping missingRootVisit = some (emptyMapping, none) ∧
      Build bothConfig false [missingRootVisit] =
        .dumped (.json { jsonFile := "assets.json".toList }) emptyMapping := by
  decide

/-- No walk makes `Build` return an error: the callback returns `nil` on every
path, so the test `err != nil` after `filepath.Walk` never holds. -/
theorem build_never_walkFailed (config : Config) (isProduction : Bool)
    (visits : List WalkVisit) (err : GoError) :
    Build config isProduction visits ≠ .walkFailed err := by
  unfold Build
  split
  · simp
  · rename_i hw
    have := (walk_shape visits emptyMapping _ _ hw).1
    simp at this
  · simp

/-! ## The choice of the dumper -/

/-- C4. When `Build` reaches a dumper it is exactly one, chosen by
`AssetsMappingJson` alone: the JSON dumper on that path if and only if the path
is not empty, whatever the package settings, and otherwise the Go-package
dumper with the two package settings. With both configured the Go-package
dumper is not the one called. -/
theorem build_dumper_choice (config : Config) (isProduction : Bool)
    (visits : List WalkVisit) (dumper : MappingDumper) (mapping : AssetsMapping)
    (h : Build config isProduction visits = .dumped dumper mapping) :
    (config.AssetsMappingJson ≠ [] ↔
        dumper = .json { jsonFile := config.AssetsMappingJson }) ∧
      (config.AssetsMappingJson = [] ↔
        dumper = .goPkg { pkgName := config.AssetsMappingPkg,
                          pkgNameRelative := config.AssetsMappingPkgRelative }) := by
  obtain ⟨_, rfl⟩ := walk_of_build config isProduction visits dumper mapping h
  unfold selectDumper
  by_cases hj : config.AssetsMappingJson = []
  · simp [hj]
  · simp [hj]

/-- C4, at a concrete input: with a JSON path and a package name both
configured, the walk of `sampleVisits` ends in the JSON dumper. -/
theorem build_dumper_choice_witness :
    (bothConfig.AssetsMappingJson ≠ [] ↔
        selectDumper bothConfig = .json { jsonFile := bothConfig.AssetsMappingJson }) ∧
      (bothConfig.AssetsMappingJson = [] ↔
        selectDumper bothConfig =
          .goPkg { pkgName := bothConfig.AssetsMappingPkg,
                   pkgNameRelative := bothConfig.AssetsMappingPkgRelative }) :=
  build_dumper_choice bothConfig true sampleVisits (selectDumper bothConfig) sampleMapping
    (by decide)

/-! ## Sorted rendering -/

/-- C6. For every collection the Go-package dumper sorts without failing, and
the entries it passes to the template are in ascending order of `Src` under
byte-wise comparison and are a permutation of the entries it was given. -/
theorem goPkg_dump_sorted_perm (d : GoPkgMappingDumper) (goPath : GoString)
    (mapping : AssetsMapping) :
    ∃ data, d.sorted goPath mapping = some data ∧
      d.Dump goPath mapping =
        some (.goFile (d.GetPkgPath goPath).2 (tmAssetsMapping.Execute data)) ∧
      ascendingSrc data.Mappings ∧ data.Mappings.Perm mapping.Mappings := by
  obtain ⟨l, hs, hp, ha⟩ := sortData_spec { mapping with PkgName := (d.GetPkgPath goPath).1 }
  refine ⟨_, hs, ?_, ha, hp⟩
  unfold GoPkgMappingDumper.Dump GoPkgMappingDumper.sorted
  rw [hs]

/-! ## The map of the JSON dumper -/

theorem find?_filter_ne (m : GoMap) (k k' : GoString) (h : k ≠ k') :
    (m.filter (fun p => decide (p.1 ≠ k))).find? (fun p => decide (p.1 = k')) =
      m.find? (fun p => decide (p.1 = k')) := by
  induction m with
  | nil => rfl
  | cons p m ih =>
    by_cases hp : p.1 = k
    · have hp' : ¬ p.1 = k' := fun e => h (hp.symm.trans e)
      rw [List.filter_cons_of_neg (by simpa using hp),
        List.find?_cons_of_neg _ (by simpa using hp'), ih]
    · rw [List.filter_cons_of_pos (by simpa using hp)]
      by_cases hq : p.1 = k'
      · rw [List.find?_cons_of_pos _ (by simpa using hq),
          List.find?_cons_of_pos _ (by simpa using hq)]
      · rw [List.find?_cons_of_neg _ (by simpa using hq),
          List.find?_cons_of_neg _ (by simpa using hq), ih]

theorem lookup_assign (m : GoMap) (k v k' : GoString) :
    (m.assign k v).lookup k' = if k = k' then some v else m.lookup k' := by
  unfold GoMap.assign GoMap.lookup
  by_cases h : k = k'
  · rw [List.find?_cons_of_pos _ (by simpa using h), if_pos h]
    rfl
  · rw [List.find?_cons_of_neg _ (by simpa using h), if_neg h, find?_filter_ne m k k' h]

theorem mem_assign (m : GoMap) (k v : GoString) (p : GoString × GoString) :
    p ∈ m.assign k v ↔ p = (k, v) ∨ (p ∈ m ∧ p.1 ≠ k) := by
  unfold GoMap.assign
  simp [List.mem_filter]

theorem keys_assign_nodup (m : GoMap) (k v : GoString) (h : m.keys.Nodup) :
    (m.assign k v).keys.Nodup := by
  unfold GoMap.assign GoMap.keys at *
  rw [List.map_cons, List.nodup_cons]
  constructor
  · simp [List.mem_filter]
  · exact List.Nodup.sublist (List.Sublist.map _ (List.filter_sublist _)) h

theorem lookup_eq_none_iff (m : GoMap) (k : GoString) :
    m.lookup k = none ↔ k ∉ m.keys := by
  unfold GoMap.lookup GoMap.keys
  simp only [Option.map_eq_none', List.find?_eq_none, decide_eq_true_eq, List.mem_map,
    not_exists, not_and]

theorem mem_iff_lookup (m : GoMap) (h : m.keys.Nodup) (k v : GoString) :
    (k, v) ∈ m ↔ m.lookup k = some v := by
  induction m with
  | nil => simp [GoMap.lookup]
  | cons p m ih =>
    obtain ⟨pk, pv⟩ := p
    have hn : pk ∉ GoMap.keys m ∧ (GoMap.keys m).Nodup := by
      simpa [GoMap.keys] using h
    have ih' := ih hn.2
    by_cases hk : pk = k
    · subst hk
      have hnot : ∀ w, (pk, w) ∉ m := by
        intro w hw
        exact hn.1 (List.mem_map_of_mem (fun p => p.1) hw)
      simp [GoMap.lookup, List.find?_cons, hnot]
      exact eq_comm
    · have hk' : ¬ k = pk := fun e => hk e.symm
      simp only [List.mem_cons, Prod.mk.injEq, hk', false_and, false_or, ih']
      simp [GoMap.lookup, List.find?_cons, hk]

theorem foldl_assign_nodup (l : List AssetsMappingItem) (acc : GoMap) (h : acc.keys.Nodup) :
    (l.foldl (fun srcMap m => GoMap.assign srcMap m.Src m.Target) acc).keys.Nodup := by
  induction l generalizing acc with
  | nil => exact h
  | cons x l ih => exact ih _ (keys_assign_nodup acc x.Src x.Target h)

theorem foldl_assign_lookup (l : List AssetsMappingItem) (acc : GoMap) (k : GoString) :
    (l.foldl (fun srcMap m => GoMap.assign srcMap m.Src m.Target) acc).lookup k =
      (((l.filter (fun it => decide (it.Src = k))).getLast?).map (fun it => it.Target)).or
        (acc.lookup k) := by
  induction l generalizing acc with
  | nil => simp
  | cons x l ih =>
    rw [List.foldl_cons, ih, lookup_assign]
    by_cases hx : x.Src = k
    · simp only [hx, if_true, List.filter_cons, decide_True]
      cases hfl : l.filter (fun it => decide (it.Src = k)) with
      | nil => simp
      | cons y fl =>
        rw [List.getLast?_eq_getLast _ (List.cons_ne_nil _ _),
          List.getLast?_eq_getLast _ (List.cons_ne_nil _ _)]
        simp
    · simp [hx, List.filter_cons]

theorem srcMap_lookup (mapping : AssetsMapping) (k : GoString) :
    (JsonMappingDumper.srcMap mapping).lookup k =
      ((mapping.Mappings.filter (fun it => decide (it.Src = k))).getLast?).map
        (fun it => it.Target) := by
  unfold JsonMappingDumper.srcMap
  rw [foldl_assign_lookup]
  simp [GoMap.lookup]

theorem srcMap_nodup (mapping : AssetsMapping) :
    (JsonMappingDumper.srcMap mapping).keys.Nodup :=
  foldl_assign_nodup mapping.Mappings [] (by simp [GoMap.keys])

/-- C7. The map the JSON dumper serialises is a map (each key once); its keys
are exactly the `Src` values of the collection, and each key is bound to the
`Target` of the last entry of the collection with that `Src`. -/
theorem srcMap_last_write_wins (mapping : AssetsMapping) (k : GoString) :
    (JsonMappingDumper.srcMap mapping).keys.Nodup ∧
      (k ∈ (JsonMappingDumper.srcMap mapping).keys ↔
        k ∈ mapping.Mappings.map (fun it => it.Src)) ∧
      (JsonMappingDumper.srcMap mapping).lookup k =
        ((mapping.Mappings.filter (fun it => decide (it.Src = k))).getLast?).map
          (fun it => it.Target) := by
  refine ⟨srcMap_nodup mapping, ?_, srcMap_lookup mapping k⟩
  have h := lookup_eq_none_iff (JsonMappingDumper.srcMap mapping) k
  rw [srcMap_lookup] at h
  rw [← not_iff_not, ← h]
  simp [List.filter_eq_nil_iff]

theorem srcMap_mem_iff (mapping : AssetsMapping) (k v : GoString) :
    (k, v) ∈ JsonMappingDumper.srcMap mapping ↔
      ∃ it, (mapping.Mappings.filter (fun it => decide (it.Src = k))).getLast? = some it ∧
        it.Target = v := by
  rw [mem_iff_lookup _ (srcMap_nodup mapping), srcMap_lookup]
  simp [Option.map_eq_some']

theorem srcMap_subset (mapping : AssetsMapping) (p : GoString × GoString)
    (h : p ∈ JsonMappingDumper.srcMap mapping) :
    ∃ it ∈ mapping.Mappings, p = (it.Src, it.Target) := by
  obtain ⟨k, v⟩ := p
  obtain ⟨it, hlast, ht⟩ := (srcMap_mem_iff mapping k v).1 h
  have hm := List.mem_of_getLast?_eq_some hlast
  rw [List.mem_filter] at hm
  refine ⟨it, hm.1, ?_⟩
  rw [ht, of_decide_eq_true hm.2]

/-- The collection `dupMapping` is one that `Build` produces: two files of one
directory whose base names are exactly 35 bytes long get the same `Src`. -/
theorem build_dupVisits :
    walkOfPublic dupVisits ∧
      Build bothConfig false dupVisits = .dumped (selectDumper bothConfig) dupMapping ∧
      Build bothConfig false dupVisits.reverse =
        .dumped (selectDumper bothConfig) dupMappingSwapped := by
  decide

theorem srcMap_round_trip_iff (mapping : AssetsMapping) :
    srcMapRoundTrip mapping ↔ srcDeterminesTarget mapping.Mappings := by
  constructor
  · intro h a ha b hb hab
    have h1 := (h (a.Src, a.Target)).2 ⟨a, ha, rfl⟩
    have h2 := (h (b.Src, b.Target)).2 ⟨b, hb, rfl⟩
    rw [mem_iff_lookup _ (srcMap_nodup mapping)] at h1 h2
    rw [hab, h2] at h1
    exact (Option.some.inj h1).symm
  · intro hf p
    refine ⟨srcMap_subset mapping p, ?_⟩
    rintro ⟨it, hit, rfl⟩
    rw [srcMap_mem_iff]
    have hne : mapping.Mappings.filter (fun x => decide (x.Src = it.Src)) ≠ [] := by
      intro he
      rw [List.filter_eq_nil_iff] at he
      exact he it hit (by simp)
    refine ⟨_, List.getLast?_eq_getLast _ hne, ?_⟩
    have hm := List.getLast_mem hne
    rw [List.mem_filter] at hm
    exact hf _ hm.1 _ hit (of_decide_eq_true hm.2)

/-! ## Determinism of the generated module -/

theorem ascending_perm_unique (l1 l2 : List AssetsMappingItem) (hp : l1.Perm l2)
    (hf : srcDeterminesTarget l1) (h1 : ascendingSrc l1) (h2 : ascendingSrc l2) :
    l1 = l2 := by
  have hf2 : srcDeterminesTarget l2 := fun a ha b hb =>
    hf a (hp.mem_iff.2 ha) b (hp.mem_iff.2 hb)
  have key : ∀ l : List AssetsMappingItem, srcDeterminesTarget l → ascendingSrc l →
      l.Pairwise (fun a b => strLess a.Src b.Src = true ∨ a = b) := by
    intro l hfl hl
    refine List.Pairwise.imp_of_mem ?_ hl
    intro a b ha hb hab
    cases hlt : strLess a.Src b.Src with
    | true => exact Or.inl rfl
    | false =>
      right
      have hs := strLess_trichotomy _ _ hlt hab
      have ht := hfl a ha b hb hs
      cases a; cases b; simp_all
  haveI : IsAntisymm AssetsMappingItem (fun a b => strLess a.Src b.Src = true ∨ a = b) :=
    ⟨by
      intro a b hab hba
      rcases hab with hab | hab
      · rcases hba with hba | hba
        · rw [strLess_asymm _ _ hab] at hba
          exact absurd hba (by simp)
        · exact hba.symm
      · exact hab⟩
  exact List.eq_of_perm_of_sorted hp (key l1 hf h1) (key l2 hf2 h2)

set_option maxRecDepth 8000 in
/-- C9, counterexample: two collections that are permutations of each other,
with two entries of `Src` `images`, are rendered to different texts. -/
theorem goPkg_dump_depends_on_order :
    dupMapping.Mappings.Perm dupMappingSwapped.Mappings ∧
      mainDumper.Dump [] dupMapping ≠ mainDumper.Dump [] dupMappingSwapped :=
  ⟨List.Perm.swap _ _ _, by decide⟩

/-- C9, amended. Two collections that are permutations of each other, in which
entries with the same `Src` have the same `Target`, are rendered by the same
Go-package dumper to the same file with the same text. -/
theorem goPkg_dump_deterministic (d : GoPkgMappingDumper) (goPath : GoString)
    (m1 m2 : AssetsMapping) (hperm : m1.Mappings.Perm m2.Mappings)
    (hfun : srcDeterminesTarget m1.Mappings) :
    ∃ artifact, d.Dump goPath m1 = some artifact ∧ d.Dump goPath m2 = some artifact := by
  obtain ⟨l1, hs1, hp1, ha1⟩ :=
    sortData_spec { m1 with PkgName := (d.GetPkgPath goPath).1 }
  obtain ⟨l2, hs2, hp2, ha2⟩ :=
    sortData_spec { m2 with PkgName := (d.GetPkgPath goPath).1 }
  have hp : l1.Perm l2 := hp1.trans (hperm.trans hp2.symm)
  have hf : srcDeterminesTarget l1 := fun a ha b hb =>
    hfun a (hp1.mem_iff.1 ha) b (hp1.mem_iff.1 hb)
  have heq := ascending_perm_unique l1 l2 hp hf ha1 ha2
  subst heq
  refine ⟨.goFile (d.GetPkgPath goPath).2
    (tmAssetsMapping.Execute ⟨(d.GetPkgPath goPath).1, l1⟩), ?_, ?_⟩
  · unfold GoPkgMappingDumper.Dump GoPkgMappingDumper.sorted
    rw [hs1]
  · unfold GoPkgMappingDumper.Dump GoPkgMappingDumper.sorted
    rw [hs2]

/-- C9, at a concrete input: the two orders of `sampleMapping` give one text. -/
theorem goPkg_dump_deterministic_witness :
    ∃ artifact, mainDumper.Dump [] sampleMapping = some artifact ∧
      mainDumper.Dump [] sampleMappingSwapped = some artifact :=
  goPkg_dump_deterministic mainDumper [] sampleMapping sampleMappingSwapped
    (List.Perm.swap _ _ _) (by decide)

/-! ## Files outside the asset categories -/

/-- C10. A regular file whose path below `public` has a first segment other
than images, javascripts and stylesheets (a file directly under the root
included), whatever its base name, leaves the collection as it is without
panicking, and no entry of a collection `Build` hands to a dumper has that path
as its `Target`. -/
theorem other_directory_excluded (config : Config) (isProduction : Bool)
    (visits : List WalkVisit) (dumper : MappingDumper) (mapping : AssetsMapping)
    (rel base : GoString) (hseg : isCategory (firstSegment rel) = false)
    (hbuild : Build config isProduction visits = .dumped dumper mapping) :
    (∀ m, walkFn m (fileVisit ("public/".toList ++ rel) base) = some (m, none)) ∧
      ∀ it ∈ mapping.Mappings, it.Target ≠ rel := by
  constructor
  · intro m
    unfold walkFn fileVisit
    simp only [sliceFrom_append "public/".toList _ _ rfl, Bool.false_eq_true, if_false]
    unfold firstSegment at hseg
    cases hsp : strings.Split rel with
    | nil => simp
    | cons p0 ps =>
      rw [hsp] at hseg
      simp only [List.headD_cons] at hseg
      simp [hseg]
  · intro it hit heq
    have hw := (walk_of_build config isProduction visits dumper mapping hbuild).1
    obtain ⟨_, _, added, hm, hadd⟩ := walk_shape visits emptyMapping mapping none hw
    rw [hm] at hit
    simp only [emptyMapping, List.nil_append] at hit
    have hc := (hadd it hit).1
    rw [heq, hseg] at hc
    exact absurd hc (by simp)

/-- C10, at a concrete input: `README.md` directly under the root is skipped and
is the `Target` of no entry built from `sampleVisits`. -/
theorem other_directory_excluded_witness :
    (∀ m, walkFn m (fileVisit ("public/".toList ++ "README.md".toList) "README.md".toList) =
        some (m, none)) ∧
      ∀ it ∈ sampleMapping.Mappings, it.Target ≠ "README.md".toList :=
  other_directory_excluded bothConfig true sampleVisits (selectDumper bothConfig)
    sampleMapping "README.md".toList "README.md".toList (by decide) (by decide)

/-! ## The canonical path keeps the category -/

theorem build_entry_of_walkFn (config : Config) (isProduction : Bool)
    (visits : List WalkVisit) (dumper : MappingDumper) (mapping : AssetsMapping)
    (v : WalkVisit) (rel src : GoString) (hwalk : walkOfPublic visits)
    (hvname : v.name = "public/".toList ++ rel)
    (hfn : ∀ m, walkFn m v = some (m.AddItem src rel, none)) (hv : v ∈ visits)
    (hbuild : Build config isProduction visits = .dumped dumper mapping) :
    mapping.Mappings.filter (fun it => decide (it.Target = rel)) = [⟨src, rel⟩] := by
  obtain ⟨hroot, hnodup⟩ := hwalk
  have hw := (walk_of_build config isProduction visits dumper mapping hbuild).1
  obtain ⟨pre, post, rfl⟩ := List.append_of_mem hv
  rw [List.map_append, List.map_cons] at hnodup
  have hnd := List.nodup_middle.1 hnodup
  rw [List.nodup_cons] at hnd
  have hne : ∀ w ∈ pre ++ post, w.name ≠ "public/".toList ++ rel := by
    intro w hw heq
    apply hnd.1
    rw [hvname, ← List.map_append, ← heq]
    exact List.mem_map_of_mem _ hw
  have hroot1 : ∀ w ∈ pre, w.name = "public".toList ∨
      strings.HasPrefix w.name "public/".toList = true :=
    fun w hw => hroot w (by simp [hw])
  have hroot2 : ∀ w ∈ post, w.name = "public".toList ∨
      strings.HasPrefix w.name "public/".toList = true :=
    fun w hw => hroot w (by simp [hw])
  rw [walk_append] at hw
  cases h1 : filepath.Walk walkFn emptyMapping pre with
  | none => simp [h1] at hw
  | some r1 =>
    obtain ⟨m1, e1⟩ := r1
    obtain ⟨rfl, _, added1, hm1, hadd1⟩ := walk_shape pre emptyMapping m1 e1 h1
    simp only [h1, filepath.Walk, hfn m1] at hw
    obtain ⟨_, _, added2, hm2, hadd2⟩ := walk_shape post _ mapping none hw
    have hf1 := filter_added_nil pre rel added1 hroot1
      (fun w hw => hne w (by simp [hw])) hadd1
    have hf2 := filter_added_nil post rel added2 hroot2
      (fun w hw => hne w (by simp [hw])) hadd2
    rw [hm2]
    simp only [AssetsMapping.AddItem, hm1, emptyMapping, List.nil_append, List.filter_append,
      hf1, hf2, List.append_nil]
    simp [List.filter]

theorem join_valid_ne_nil (segs : List GoString) (hne : segs ≠ [])
    (h : ∀ s ∈ segs, validName s) : strings.Join segs ≠ [] := by
  cases segs with
  | nil => exact absurd rfl hne
  | cons a rest =>
    have ha := (h a (by simp)).1
    cases a with
    | nil => exact absurd rfl ha
    | cons c cs =>
      rw [join_head rest (c :: cs) c cs rfl]
      simp

theorem firstSegment_join (a : GoString) (rest : List GoString)
    (h : ∀ s ∈ a :: rest, '/' ∉ s) : firstSegment (strings.Join (a :: rest)) = a := by
  unfold firstSegment
  rw [split_join _ (by simp) h]
  rfl

theorem join_cons_ne (a : GoString) (rest : List GoString) (hne : rest ≠ [])
    (h : ∀ s ∈ a :: rest, '/' ∉ s) : strings.Join (a :: rest) ≠ strings.Join rest := by
  intro he
  have h1 := split_join (a :: rest) (by simp) h
  have h2 := split_join rest hne (fun s hs => h s (by simp [hs]))
  rw [he, h2] at h1
  have := congrArg List.length h1
  simp at this

/-- C11, counterexample: for `javascripts/app/<fpB>main.js` the entry `Build`
adds has `Src` `javascripts/app/main.js`; no entry with that `Target` has `Src`
`app/main.js`. -/
theorem src_is_not_app_main_js :
    Build bothConfig false sampleVisits = .dumped (selectDumper bothConfig) sampleMapping ∧
      ∀ it ∈ sampleMapping.Mappings,
        it.Target = "javascripts/app/".toList ++ fpB ++ "main.js".toList →
          it.Src = "javascripts/app/main.js".toList ∧ it.Src ≠ "app/main.js".toList := by
  decide

/-- C11, amended. For a fingerprinted file `cat/sub.../fp·orig` the walk visits,
`Build` adds an entry with that path as `Target`, and every entry with that
`Target` has as `Src` the path `cat/sub.../orig`: it begins with the category
segment and differs from the path `sub.../orig` without it. For
`javascripts/app/<prefix>main.js` the `Src` is `javascripts/app/main.js`. -/
theorem src_keeps_category (config : Config) (isProduction : Bool)
    (visits : List WalkVisit) (cat fp orig : GoString) (sub : List GoString)
    (dumper : MappingDumper) (mapping : AssetsMapping)
    (hwalk : walkOfPublic visits)
    (hcat : isCategory cat = true) (hsub : ∀ d ∈ sub, validName d)
    (hlen : fp.length = 35) (hfp : strings.HasPrefix fp "fp".toList = true)
    (hslash : '/' ∉ fp) (horig : validName orig)
    (hv : (⟨"public/".toList ++ strings.Join (cat :: sub ++ [fp ++ orig]),
        some ⟨fp ++ orig, false⟩, none⟩ : WalkVisit) ∈ visits)
    (hbuild : Build config isProduction visits = .dumped dumper mapping) :
    (∃ it ∈ mapping.Mappings, it.Target = strings.Join (cat :: sub ++ [fp ++ orig])) ∧
      ∀ it ∈ mapping.Mappings, it.Target = strings.Join (cat :: sub ++ [fp ++ orig]) →
        it.Src = strings.Join (cat :: sub ++ [orig]) ∧ firstSegment it.Src = cat ∧
          it.Src ≠ strings.Join (sub ++ [orig]) := by
  have hfn := fun m => walkFn_fingerprinted m cat fp orig sub hcat hsub hlen hfp hslash horig
  have hfilter := build_entry_of_walkFn config isProduction visits dumper mapping _
    (strings.Join (cat :: sub ++ [fp ++ orig])) (strings.Join (cat :: sub ++ [orig]))
    hwalk rfl hfn hv hbuild
  have hmem : ∀ it, (it ∈ mapping.Mappings ∧
      it.Target = strings.Join (cat :: sub ++ [fp ++ orig])) ↔
      it = ⟨strings.Join (cat :: sub ++ [orig]),
        strings.Join (cat :: sub ++ [fp ++ orig])⟩ := by
    intro it
    have hm : it ∈ mapping.Mappings.filter (fun it => decide (it.Target =
        strings.Join (cat :: sub ++ [fp ++ orig]))) ↔
        it ∈ mapping.Mappings ∧ decide (it.Target =
          strings.Join (cat :: sub ++ [fp ++ orig])) = true := List.mem_filter
    rw [hfilter] at hm
    simpa using hm.symm
  have hvc := validName_of_isCategory cat hcat
  have hns : ∀ s ∈ cat :: (sub ++ [orig]), '/' ∉ s := by
    intro s hs
    simp only [List.mem_cons, List.mem_append, List.mem_singleton, List.not_mem_nil,
      or_false] at hs
    rcases hs with rfl | hs | rfl
    · exact hvc.2.2.2
    · exact (hsub s hs).2.2.2
    · exact horig.2.2.2
  constructor
  · exact ⟨_, ((hmem _).2 rfl).1, rfl⟩
  · intro it hit ht
    have he := (hmem it).1 ⟨hit, ht⟩
    subst he
    refine ⟨rfl, ?_, ?_⟩
    · exact firstSegment_join cat (sub ++ [orig]) hns
    · exact join_cons_ne cat (sub ++ [orig]) (by simp) hns

/-- C11, at a concrete tree: in the walk of `sampleVisits` the entry for
`javascripts/app/<fpB>main.js` has `Src` `javascripts/app/main.js`. -/
theorem src_keeps_category_witness :
    (∃ it ∈ sampleMapping.Mappings, it.Target =
        strings.Join ("javascripts".toList :: ["app".toList] ++ [fpB ++ "main.js".toList])) ∧
      ∀ it ∈ sampleMapping.Mappings, it.Target =
          strings.Join ("javascripts".toList :: ["app".toList] ++ [fpB ++ "main.js".toList]) →
        it.Src = strings.Join ("javascripts".toList :: ["app".toList] ++ ["main.js".toList]) ∧
          firstSegment it.Src = "javascripts".toList ∧
          it.Src ≠ strings.Join (["app".toList] ++ ["main.js".toList]) :=
  src_keeps_category bothConfig true sampleVisits "javascripts".toList fpB
    "main.js".toList ["app".toList] (selectDumper bothConfig) sampleMapping
    (by decide) (by decide) (by decide) (by decide) (by decide) (by decide) (by decide)
    (by decide) (by decide)

/-! ## The text of the generated module -/

theorem execute_eq_moduleText (name : GoString) (l : List AssetsMappingItem) :
    tmAssetsMapping.Execute ⟨name, l⟩ = moduleText name l := by
  have hmap : (fun m : AssetsMappingItem =>
      "\"".toList ++ m.Src ++ "\": \"".toList ++ m.Target ++ "\",\n    ".toList) =
      fun it => mapElement it ++ "\n    ".toList := by
    funext m
    unfold mapElement
    have hc : "\",\n    ".toList = "\",".toList ++ "\n    ".toList := by decide
    rw [hc]
    simp only [List.append_assoc]
  have hhead : ("// This file is generated by GoBuildWeb\n" ++
      "// Containing all the assets mapping data for your router reverse lookup\n" ++
      "// Better not to edit this.\n\npackage ").toList =
      generatedBanner ++ "\npackage ".toList := by decide
  unfold tmAssetsMapping.Execute moduleText
  simp only [hmap, hhead]

/-- C12. For every collection and every dumper, the text the Go-package dumper
renders is the three-line banner, then `package` with the name `GetPkgPath`
returns (whatever `PkgName` the collection carried), then the one map literal
`allAssetsMapping` with exactly one element `"<Src>": "<Target>",` per entry,
in the sorted order of a permutation of the entries, and nothing else. -/
theorem goPkg_dump_module_text (d : GoPkgMappingDumper) (goPath : GoString)
    (mapping : AssetsMapping) :
    ∃ l, l.Perm mapping.Mappings ∧ ascendingSrc l ∧
      d.Dump goPath mapping =
        some (.goFile (d.GetPkgPath goPath).2 (moduleText (d.GetPkgPath goPath).1 l)) := by
  obtain ⟨l, hs, hp, ha⟩ := sortData_spec { mapping with PkgName := (d.GetPkgPath goPath).1 }
  refine ⟨l, hp, ha, ?_⟩
  unfold GoPkgMappingDumper.Dump GoPkgMappingDumper.sorted
  rw [hs]
  simp only [execute_eq_moduleText]

/-! ## The build-mode flag -/

/-- C13. The flag `isProduction` is inert: for every configuration, every walk
and every `GOPATH`, `Build(true)` and `Build(false)` build the same collection,
choose the same dumper, return the same result and write the same output. -/
theorem build_mode_inert (config : Config) (visits : List WalkVisit) (goPath : GoString) :
    Build config true visits = Build config false visits ∧
      (Build config true visits).artifact goPath =
        (Build config false visits).artifact goPath :=
  ⟨rfl, rfl⟩

/-! ## Appending to the collection -/

theorem walkFn_eq_map (m : AssetsMapping) (v : WalkVisit) :
    walkFn m v = (walkFn emptyMapping v).map
      (fun r => (⟨m.PkgName, m.Mappings ++ r.1.Mappings⟩, r.2)) := by
  unfold walkFn
  split
  · simp [emptyMapping]
  · simp
  · split
    · simp [emptyMapping]
    · split
      · simp
      · dsimp only
        split
        · split
          · simp
          · split
            · simp
            · simp [AssetsMapping.AddItem, emptyMapping]
        · simp [emptyMapping]

theorem walkFn_from_empty (m m' : AssetsMapping) (v : WalkVisit) (e : Option GoError)
    (h : walkFn m v = some (m', e)) :
    m'.Mappings = m.Mappings ++ acceptedEntries v := by
  rw [walkFn_eq_map] at h
  unfold acceptedEntries
  cases hw : walkFn emptyMapping v with
  | none => simp [hw] at h
  | some r =>
    simp only [hw, Option.map_some', Option.some.injEq, Prod.mk.injEq] at h
    rw [← h.1]

theorem walk_from_empty (vs : List WalkVisit) (m m' : AssetsMapping) (e : Option GoError)
    (h : filepath.Walk walkFn m vs = some (m', e)) :
    m'.Mappings = m.Mappings ++ vs.flatMap acceptedEntries := by
  induction vs generalizing m with
  | nil =>
    simp [filepath.Walk] at h
    simp [h.1.symm]
  | cons v vs ih =>
    simp only [filepath.Walk] at h
    cases hfn : walkFn m v with
    | none => simp [hfn] at h
    | some r =>
      obtain ⟨m1, e1⟩ := r
      obtain ⟨rfl, _, _⟩ := walkFn_shape m m1 v e1 hfn
      simp only [hfn] at h
      rw [ih m1 h, walkFn_from_empty m m1 v none hfn, List.flatMap_cons, List.append_assoc]

/-- C14. `AddItem` appends: the length grows by one, the new last entry is
`(src, target)`, the earlier entries stay at their indices and `PkgName` stays,
whether or not `src` is already present; so the collection `Build` hands to the
dumper lists, in the order of the walk, the entries of the visits the callback
accepted, duplicates included. -/
theorem addItem_appends (am : AssetsMapping) (src target : GoString) (config : Config)
    (isProduction : Bool) (visits : List WalkVisit) (dumper : MappingDumper)
    (mapping : AssetsMapping)
    (hbuild : Build config isProduction visits = .dumped dumper mapping) :
    (am.AddItem src target).Len = am.Len + 1 ∧
      (am.AddItem src target).Mappings[am.Len]? = some ⟨src, target⟩ ∧
      (∀ i, i < am.Len → (am.AddItem src target).Mappings[i]? = am.Mappings[i]?) ∧
      (am.AddItem src target).PkgName = am.PkgName ∧
      mapping.Mappings = visits.flatMap acceptedEntries := by
  refine ⟨?_, ?_, ?_, rfl, ?_⟩
  · simp [AssetsMapping.AddItem, AssetsMapping.Len]
  · simp [AssetsMapping.AddItem, AssetsMapping.Len]
  · intro i hi
    unfold AssetsMapping.Len at hi
    simp only [AssetsMapping.AddItem]
    exact List.getElem?_append_left hi
  · have hw := (walk_of_build config isProduction visits dumper mapping hbuild).1
    have h := walk_from_empty visits emptyMapping mapping none hw
    simpa [emptyMapping] using h

/-- C14, at a concrete input: an entry whose `Src` `images` is already present
twice is appended to `dupMapping`, and the walk of `dupVisits` lists both
files of the directory. -/
theorem addItem_appends_witness :
    (dupMapping.AddItem "images".toList "images/x".toList).Len = dupMapping.Len + 1 ∧
      (dupMapping.AddItem "images".toList "images/x".toList).Mappings[dupMapping.Len]? =
        some ⟨"images".toList, "images/x".toList⟩ ∧
      (∀ i, i < dupMapping.Len →
        (dupMapping.AddItem "images".toList "images/x".toList).Mappings[i]? =
          dupMapping.Mappings[i]?) ∧
      (dupMapping.AddItem "images".toList "images/x".toList).PkgName = dupMapping.PkgName ∧
      dupMapping.Mappings = dupVisits.flatMap acceptedEntries :=
  addItem_appends dupMapping "images".toList "images/x".toList bothConfig false dupVisits
    (selectDumper bothConfig) dupMapping (by decide)

/-! ## Base names of exactly 35 bytes -/

theorem pathJoin_drop_empty (segs : List GoString) (hne : segs ≠ [])
    (h : ∀ s ∈ segs, validName s) : path.Join (segs ++ [[]]) = strings.Join segs := by
  have hf : (segs ++ [[]]).filter (fun e => decide (e ≠ [])) = segs := by
    rw [List.filter_append, List.filter_eq_self.2]
    · simp
    · intro s hs
      simpa using (h s hs).1
  unfold path.Join
  simp only [hf, hne, if_false]
  exact clean_join_valid segs hne h

theorem walkFn_exact_prefix (m : AssetsMapping) (cat fp : GoString) (sub : List GoString)
    (hcat : isCategory cat = true) (hsub : ∀ d ∈ sub, validName d)
    (hlen : fp.length = 35) (hfp : strings.HasPrefix fp "fp".toList = true)
    (hslash : '/' ∉ fp) :
    walkFn m ⟨"public/".toList ++ strings.Join (cat :: sub ++ [fp]),
        some ⟨fp, false⟩, none⟩ =
      some (m.AddItem (strings.Join (cat :: sub)) (strings.Join (cat :: sub ++ [fp])),
        none) := by
  have hvc := validName_of_isCategory cat hcat
  have hsplit : strings.Split (strings.Join (cat :: sub ++ [fp])) = cat :: sub ++ [fp] := by
    apply split_join _ (by simp)
    intro s hs
    simp only [List.mem_cons, List.mem_append, List.mem_singleton, List.not_mem_nil,
      or_false] at hs
    rcases hs with (rfl | hs) | rfl
    · exact hvc.2.2.2
    · exact (hsub s hs).2.2.2
    · exact hslash
  have hvalid : ∀ s ∈ cat :: sub, validName s := by
    intro s hs
    rcases List.mem_cons.1 hs with rfl | hs
    · exact hvc
    · exact hsub s hs
  have hjoin := pathJoin_drop_empty (cat :: sub) (by simp) hvalid
  have hlast : (cat :: sub ++ [fp]).getLast? = some fp := List.getLast?_concat (cat :: sub)
  have hset := set_last (cat :: sub) fp []
  have hslice : sliceFrom fp 35 = some [] := by
    have := sliceFrom_append fp [] 35 hlen
    simpa using this
  simp only [List.cons_append] at hlast hset hjoin hsplit
  unfold walkFn
  simp only [sliceFrom_append "public/".toList _ _ rfl, List.cons_append, hsplit, hcat,
    hfp, Bool.and_self, if_true, hlast, hslice, hset, hjoin]
  simp

/-- C15. For two regular files of one directory `cat/sub...` below a category
whose base names begin with "fp" and are exactly 35 bytes long, `Build` adds
for each exactly one entry with the file's path as `Target`, and the `Src` of
both is the path of the directory alone: the files share the canonical path. -/
theorem exact_prefix_src_is_directory (config : Config) (isProduction : Bool)
    (visits : List WalkVisit) (cat fp1 fp2 : GoString) (sub : List GoString)
    (dumper : MappingDumper) (mapping : AssetsMapping)
    (hwalk : walkOfPublic visits)
    (hcat : isCategory cat = true) (hsub : ∀ d ∈ sub, validName d)
    (hlen1 : fp1.length = 35) (hfp1 : strings.HasPrefix fp1 "fp".toList = true)
    (hslash1 : '/' ∉ fp1)
    (hlen2 : fp2.length = 35) (hfp2 : strings.HasPrefix fp2 "fp".toList = true)
    (hslash2 : '/' ∉ fp2)
    (hv1 : (⟨"public/".toList ++ strings.Join (cat :: sub ++ [fp1]),
        some ⟨fp1, false⟩, none⟩ : WalkVisit) ∈ visits)
    (hv2 : (⟨"public/".toList ++ strings.Join (cat :: sub ++ [fp2]),
        some ⟨fp2, false⟩, none⟩ : WalkVisit) ∈ visits)
    (hbuild : Build config isProduction visits = .dumped dumper mapping) :
    mapping.Mappings.filter
        (fun it => decide (it.Target = strings.Join (cat :: sub ++ [fp1]))) =
      [⟨strings.Join (cat :: sub), strings.Join (cat :: sub ++ [fp1])⟩] ∧
    mapping.Mappings.filter
        (fun it => decide (it.Target = strings.Join (cat :: sub ++ [fp2]))) =
      [⟨strings.Join (cat :: sub), strings.Join (cat :: sub ++ [fp2])⟩] :=
  ⟨build_entry_of_walkFn config isProduction visits dumper mapping _ _ _ hwalk rfl
      (fun m => walkFn_exact_prefix m cat fp1 sub hcat hsub hlen1 hfp1 hslash1) hv1 hbuild,
    build_entry_of_walkFn config isProduction visits dumper mapping _ _ _ hwalk rfl
      (fun m => walkFn_exact_prefix m cat fp2 sub hcat hsub hlen2 hfp2 hslash2) hv2 hbuild⟩

/-- C15, at a concrete tree: `images/<fpA>` and `images/<fpB>` both get `Src`
`images`. -/
theorem exact_prefix_src_is_directory_witness :
    dupMapping.Mappings.filter
        (fun it => decide (it.Target = strings.Join ("images".toList :: [] ++ [fpA]))) =
      [⟨strings.Join ("images".toList :: []), strings.Join ("images".toList :: [] ++ [fpA])⟩] ∧
    dupMapping.Mappings.filter
        (fun it => decide (it.Target = strings.Join ("images".toList :: [] ++ [fpB]))) =
      [⟨strings.Join ("images".toList :: []), strings.Join ("images".toList :: [] ++ [fpB])⟩] :=
  exact_prefix_src_is_directory bothConfig false dupVisits "images".toList fpA fpB []
    (selectDumper bothConfig) dupMapping (by decide) (by decide) (by decide) (by decide)
    (by decide) (by decide) (by decide) (by decide) (by decide) (by decide) (by decide)
    (by decide)

/-! ## The strings of the JSON encoder -/

theorem stringValueAux_of_valid (s : GoString) (k : Nat) (h : utf8.validAux k s = true) :
    json.stringValueAux k s = s := by
  induction s generalizing k with
  | nil => cases k <;> rfl
  | cons b rest ih =>
    cases k with
    | succ k =>
      simp only [utf8.validAux] at h
      simp only [json.stringValueAux, ih k h]
    | zero =>
      simp only [utf8.validAux] at h
      simp only [json.stringValueAux]
      cases hd : utf8.decodeSize (b :: rest) with
      | none => simp [hd] at h
      | some n =>
        simp only [hd] at h
        simp only [ih _ h]

theorem stringValue_of_valid (s : GoString) (h : utf8.ValidString s = true) :
    json.stringValue s = s :=
  stringValueAux_of_valid s 0 h

theorem stringValueAux_copy (s : GoString) (k : Nat) (hk : k ≤ s.length) :
    json.stringValueAux k s = s.take k ++ json.stringValueAux 0 (s.drop k) := by
  induction s generalizing k with
  | nil => cases k <;> simp [json.stringValueAux]
  | cons b rest ih =>
    cases k with
    | zero => simp
    | succ k =>
      simp only [List.length_cons, Nat.add_le_add_iff_right] at hk
      simp only [json.stringValueAux, List.take_succ_cons, List.drop_succ_cons, ih k hk,
        List.cons_append]

theorem validAux_copy (s : GoString) (k : Nat) (hk : k ≤ s.length) :
    utf8.validAux k s = utf8.validAux 0 (s.drop k) := by
  induction s generalizing k with
  | nil => cases k <;> simp [utf8.validAux]
  | cons b rest ih =>
    cases k with
    | zero => simp
    | succ k =>
      simp only [List.length_cons, Nat.add_le_add_iff_right] at hk
      simp only [utf8.validAux, List.drop_succ_cons, ih k hk]

theorem decodeSize_spec (s : GoString) (n : Nat) (h : utf8.decodeSize s = some n) :
    1 ≤ n ∧ n ≤ s.length ∧ ∀ t, utf8.decodeSize (s.take n ++ t) = some n := by
  cases s with
  | nil => simp [utf8.decodeSize] at h
  | cons s0 rest =>
    unfold utf8.decodeSize at h
    by_cases h0 : s0.toNat < 0x80
    · simp only [h0, if_true, Option.some.injEq] at h
      subst h
      refine ⟨Nat.le_refl _, by simp, ?_⟩
      intro t
      simp [utf8.decodeSize, h0]
    · simp only [h0, if_false] at h
      split at h
      · rename_i lo hi s1 r hf
        split at h
        · rename_i hr
          simp only [Option.some.injEq] at h
          subst h
          refine ⟨by omega, by simp, ?_⟩
          intro t
          simp [utf8.decodeSize, h0, hf, hr]
        · simp at h
      · rename_i lo hi s1 s2 r hf
        split at h
        · rename_i hr
          simp only [Option.some.injEq] at h
          subst h
          refine ⟨by omega, by simp, ?_⟩
          intro t
          simp only [Bool.and_eq_true] at hr
          simp [utf8.decodeSize, h0, hf, hr]
        · simp at h
      · rename_i lo hi s1 s2 s3 r hf
        split at h
        · rename_i hr
          simp only [Option.some.injEq] at h
          subst h
          refine ⟨by omega, by simp, ?_⟩
          intro t
          simp only [Bool.and_eq_true] at hr
          simp [utf8.decodeSize, h0, hf, hr]
        · simp at h
      · simp at h

theorem decodeSize_replacement (t : GoString) :
    utf8.decodeSize (json.replacement ++ t) = some 3 := by
  rfl

theorem valid_stringValueAux (n : Nat) :
    ∀ s : GoString, s.length = n → utf8.validAux 0 (json.stringValueAux 0 s) = true := by
  induction n using Nat.strong_induction_on with
  | _ n ih =>
    intro s hn
    cases s with
    | nil => rfl
    | cons b rest =>
      simp only [List.length_cons] at hn
      simp only [json.stringValueAux]
      cases hd : utf8.decodeSize (b :: rest) with
      | none =>
        have h3 := decodeSize_replacement (json.stringValueAux 0 rest)
        have hrec := ih rest.length (by omega) rest rfl
        simp only [json.replacement, List.cons_append, List.nil_append] at h3 ⊢
        simp only [utf8.validAux, h3]
        exact hrec
      | some m =>
        obtain ⟨h1, h2, h3⟩ := decodeSize_spec _ _ hd
        simp only [List.length_cons] at h2
        obtain ⟨k, rfl⟩ : ∃ k, m = k + 1 := ⟨m - 1, by omega⟩
        have hk : k ≤ rest.length := by omega
        have h3' := h3 (json.stringValueAux 0 (rest.drop k))
        rw [List.take_succ_cons, List.cons_append] at h3'
        simp only [Nat.add_sub_cancel]
        rw [stringValueAux_copy rest k hk]
        simp only [utf8.validAux, h3', Nat.add_sub_cancel]
        rw [validAux_copy _ k (by simp; omega), List.drop_left' (by simp; omega)]
        exact ih (rest.drop k).length (by simp; omega) _ rfl

theorem valid_stringValue (s : GoString) : utf8.ValidString (json.stringValue s) = true :=
  valid_stringValueAux s.length s rfl

/-! ## The JSON round trip -/

theorem mem_marshalIndent (m : GoMap) (p : GoString × GoString) :
    p ∈ json.MarshalIndent m ↔
      ∃ q ∈ m, p = (json.stringValue q.1, json.stringValue q.2) := by
  unfold json.MarshalIndent
  rw [List.mem_map]
  constructor
  · rintro ⟨q, hq, rfl⟩
    exact ⟨q, (List.perm_insertionSort _ m).mem_iff.1 hq, rfl⟩
  · rintro ⟨q, hq, rfl⟩
    exact ⟨q, (List.perm_insertionSort _ m).mem_iff.2 hq, rfl⟩

theorem jsonRoundTrip_iff_emitted (mapping : AssetsMapping) :
    jsonRoundTrip mapping ↔
      ∀ p : GoString × GoString, p ∈ JsonMappingDumper.emitted mapping ↔
        ∃ it ∈ mapping.Mappings, p = (it.Src, it.Target) := by
  unfold jsonRoundTrip JsonMappingDumper.Dump
  constructor
  · intro h
    exact h ⟨[]⟩ [] _ rfl
  · intro h d path object hd
    simp only [Artifact.jsonFile.injEq] at hd
    rw [← hd.2]
    exact h

theorem emitted_from_entry (mapping : AssetsMapping) (p : GoString × GoString)
    (h : p ∈ JsonMappingDumper.emitted mapping) :
    ∃ it ∈ mapping.Mappings,
      p = (json.stringValue it.Src, json.stringValue it.Target) := by
  unfold JsonMappingDumper.emitted at h
  obtain ⟨q, hq, rfl⟩ := (mem_marshalIndent _ p).1 h
  obtain ⟨it, hit, rfl⟩ := srcMap_subset mapping q hq
  exact ⟨it, hit, rfl⟩

/-- The collection `invalidMapping` is one that `Build` produces. -/
theorem build_invalidVisits :
    walkOfPublic invalidVisits ∧
      Build bothConfig false invalidVisits =
        .dumped (selectDumper bothConfig) invalidMapping := by
  decide

/-- C8, counterexample: the round trip fails for two entries with `Src`
`images` and different `Target` (the object holds one pair only), and it fails
for the one entry of a file whose name has the invalid byte 0xFF (the object
holds the pair with U+FFFD in its place). -/
theorem json_round_trip_fails :
    ¬ jsonRoundTrip dupMapping ∧ ¬ jsonRoundTrip invalidMapping := by
  constructor
  · intro h
    have hmem := (h ⟨[]⟩ [] _ rfl ("images".toList, "images/".toList ++ fpA)).2
      ⟨⟨"images".toList, "images/".toList ++ fpA⟩, by decide, rfl⟩
    revert hmem
    decide
  · intro h
    have hmem := (h ⟨[]⟩ [] _ rfl ("javascripts/".toList ++ byteFF :: "x.js".toList,
        "javascripts/".toList ++ fpA ++ byteFF :: "x.js".toList)).2
      ⟨⟨"javascripts/".toList ++ byteFF :: "x.js".toList,
        "javascripts/".toList ++ fpA ++ byteFF :: "x.js".toList⟩, by decide, rfl⟩
    revert hmem
    decide

/-- C8, amended. For every collection, every (key, value) pair of the object
the JSON dumper emits is the `(Src, Target)` pair of an entry with each invalid
UTF-8 byte replaced by U+FFFD; and the emitted pairs are the `(Src, Target)`
pairs of the collection, as sets, exactly when every `Src` and `Target` is valid
UTF-8 and entries with the same `Src` have the same `Target`. -/
theorem json_round_trip_iff (mapping : AssetsMapping) :
    (∀ (d : JsonMappingDumper) (path : GoString) (object : JsonObject),
        d.Dump mapping = .jsonFile path object →
          ∀ p ∈ object, ∃ it ∈ mapping.Mappings,
            p = (json.stringValue it.Src, json.stringValue it.Target)) ∧
      (jsonRoundTrip mapping ↔
        allValidUTF8 mapping.Mappings ∧ srcDeterminesTarget mapping.Mappings) := by
  constructor
  · intro d path object hd p hp
    unfold JsonMappingDumper.Dump at hd
    simp only [Artifact.jsonFile.injEq] at hd
    rw [← hd.2] at hp
    exact emitted_from_entry mapping p hp
  · rw [jsonRoundTrip_iff_emitted]
    constructor
    · intro h
      have hvalid : allValidUTF8 mapping.Mappings := by
        intro it hit
        obtain ⟨it', _, he⟩ :=
          emitted_from_entry mapping _ ((h (it.Src, it.Target)).2 ⟨it, hit, rfl⟩)
        simp only [Prod.mk.injEq] at he
        rw [he.1, he.2]
        exact ⟨valid_stringValue _, valid_stringValue _⟩
      refine ⟨hvalid, (srcMap_round_trip_iff mapping).1 ?_⟩
      intro p
      refine ⟨srcMap_subset mapping p, ?_⟩
      rintro ⟨it, hit, rfl⟩
      have hem := (h (it.Src, it.Target)).2 ⟨it, hit, rfl⟩
      unfold JsonMappingDumper.emitted at hem
      obtain ⟨q, hq, he⟩ := (mem_marshalIndent _ _).1 hem
      obtain ⟨it', hit', rfl⟩ := srcMap_subset mapping q hq
      have hv := hvalid it' hit'
      rw [stringValue_of_valid _ hv.1, stringValue_of_valid _ hv.2] at he
      rw [he]
      exact hq
    · rintro ⟨hvalid, hdet⟩ p
      have hsm := (srcMap_round_trip_iff mapping).2 hdet
      unfold JsonMappingDumper.emitted
      rw [mem_marshalIndent]
      constructor
      · rintro ⟨q, hq, rfl⟩
        obtain ⟨it, hit, rfl⟩ := (hsm q).1 hq
        have hv := hvalid it hit
        exact ⟨it, hit, by rw [stringValue_of_valid _ hv.1, stringValue_of_valid _ hv.2]⟩
      · rintro ⟨it, hit, rfl⟩
        have hv := hvalid it hit
        exact ⟨(it.Src, it.Target), (hsm _).2 ⟨it, hit, rfl⟩,
          by rw [stringValue_of_valid _ hv.1, stringValue_of_valid _ hv.2]⟩

/-! ## Elements of a path -/

theorem split_append (a b : GoString) :
    strings.Split (a ++ '/' :: b) = strings.Split a ++ strings.Split b := by
  induction a with
  | nil => simp [strings.Split]
  | cons c a ih =>
    by_cases hc : c = '/'
    · simp [strings.Split, hc, ih]
    · cases hs : strings.Split a with
      | nil => exact absurd hs (split_ne_nil a)
      | cons h t =>
        simp only [List.cons_append, strings.Split, hc, if_false, List.append_eq, ih, hs]

theorem split_noSlash_mem (p : GoString) : ∀ s ∈ strings.Split p, '/' ∉ s := by
  induction p with
  | nil => simp [strings.Split]
  | cons c cs ih =>
    by_cases hc : c = '/'
    · intro s hs
      simp only [strings.Split, hc, if_true, List.mem_cons] at hs
      rcases hs with rfl | hs
      · simp
      · exact ih s hs
    · cases hsp : strings.Split cs with
      | nil => exact absurd hsp (split_ne_nil cs)
      | cons h t =>
        rw [hsp] at ih
        intro s hs
        simp only [strings.Split, hc, if_false, hsp, List.mem_cons] at hs
        rcases hs with rfl | hs
        · intro hm
          rcases List.mem_cons.1 hm with he | hm
          · exact hc he.symm
          · exact ih h (by simp) hm
        · exact ih s (by simp [hs])

theorem split_replicate (n : Nat) :
    strings.Split (List.replicate n '/') = List.replicate (n + 1) [] := by
  induction n with
  | zero => rfl
  | succ n ih => simp [List.replicate_succ, strings.Split, ih]

theorem split_seg_slashes (seg : GoString) (n : Nat) (hns : '/' ∉ seg) :
    strings.Split (seg ++ List.replicate n '/') = seg :: List.replicate n [] := by
  cases n with
  | zero => simpa using split_noSlash seg hns
  | succ n =>
    rw [List.replicate_succ, split_append, split_noSlash seg hns, split_replicate]
    simp [List.replicate_succ]

theorem filter_replicate_nil (n : Nat) :
    (List.replicate n ([] : GoString)).filter (fun s => decide (s ≠ [])) = [] := by
  rw [List.filter_eq_nil_iff]
  intro s hs
  simp [(List.mem_replicate.1 hs).2]

theorem lastSegment_slashes (n : Nat) : lastSegment (List.replicate n '/') = ['/'] := by
  unfold lastSegment
  rw [split_replicate, filter_replicate_nil]
  rfl

theorem lastSegment_decomp (pre seg : GoString) (n : Nat) (hseg : seg ≠ [])
    (hns : '/' ∉ seg) (hpre : pre = [] ∨ ∃ q, pre = q ++ ['/']) :
    lastSegment (pre ++ (seg ++ List.replicate n '/')) = seg := by
  unfold lastSegment
  have hfs : (seg :: List.replicate n ([] : GoString)).filter (fun s => decide (s ≠ [])) =
      [seg] := by
    rw [List.filter_cons_of_pos (by simpa using hseg), filter_replicate_nil]
  rcases hpre with rfl | ⟨q, rfl⟩
  · rw [List.nil_append, split_seg_slashes seg n hns, hfs]
    rfl
  · rw [List.append_assoc, List.singleton_append, split_append, split_seg_slashes seg n hns,
      List.filter_append, hfs, List.getLast?_concat]

theorem base_eq_lastSegment (p : GoString) (hp : p ≠ []) : path.Base p = lastSegment p := by
  unfold path.Base
  simp only [hp, if_false, List.reverse_reverse]
  generalize hr : p.reverse = r
  have hpr : p = r.reverse := by rw [← hr, List.reverse_reverse]
  generalize ht : r.takeWhile (fun c => decide (c = '/')) = t
  generalize hd : r.dropWhile (fun c => decide (c = '/')) = d
  generalize hsr : d.takeWhile (fun c => decide (c ≠ '/')) = sr
  generalize hprr : d.dropWhile (fun c => decide (c ≠ '/')) = pr
  have h1 : r = t ++ d := by
    rw [← ht, ← hd]; exact (List.takeWhile_append_dropWhile _ r).symm
  have h2 : d = sr ++ pr := by
    rw [← hsr, ← hprr]; exact (List.takeWhile_append_dropWhile _ d).symm
  have hdec : p = pr.reverse ++ (sr.reverse ++ t.reverse) := by
    rw [hpr, h1, h2]; simp
  have htrep : t.reverse = List.replicate t.length '/' := by
    rw [List.eq_replicate_iff]
    refine ⟨by simp, ?_⟩
    intro c hc
    rw [List.mem_reverse, ← ht] at hc
    simpa using List.mem_takeWhile_imp hc
  have hsrns : '/' ∉ sr.reverse := by
    intro hc
    rw [List.mem_reverse, ← hsr] at hc
    simpa using List.mem_takeWhile_imp hc
  have hdhead : ∀ c l, d = c :: l → c ≠ '/' := by
    intro c l hcl
    have hne : r.dropWhile (fun c => decide (c = '/')) ≠ [] := by rw [hd, hcl]; simp
    have := List.head_dropWhile_not (fun c => decide (c = '/')) r hne
    simp only [hd, hcl, List.head_cons] at this
    simpa using this
  have hprhead : pr.reverse = [] ∨ ∃ q, pr.reverse = q ++ ['/'] := by
    cases hpc : pr with
    | nil => left; rfl
    | cons c l =>
      right
      have hne : d.dropWhile (fun c => decide (c ≠ '/')) ≠ [] := by rw [hprr, hpc]; simp
      have := List.head_dropWhile_not (fun c => decide (c ≠ '/')) d hne
      simp only [hprr, hpc, List.head_cons] at this
      have hc : c = '/' := by simpa using this
      exact ⟨l.reverse, by rw [List.reverse_cons, hc]⟩
  by_cases hse : sr = []
  · have hd0 : d = [] := by
      cases hdc : d with
      | nil => rfl
      | cons c l =>
        exfalso
        have hc := hdhead c l hdc
        rw [hdc, List.takeWhile_cons_of_pos (by simpa using hc)] at hsr
        rw [hse] at hsr
        exact absurd hsr (by simp)
    have hpr0 : pr = [] := by rw [← hprr, hd0]; rfl
    rw [hdec, hse, hpr0, htrep]
    simp only [List.reverse_nil, List.nil_append, if_true]
    exact (lastSegment_slashes _).symm
  · have hne : sr.reverse ≠ [] := by simpa using hse
    rw [if_neg hne, hdec, htrep]
    exact (lastSegment_decomp pr.reverse sr.reverse t.length hne hsrns hprhead).symm

/-! ## Joined and cleaned paths -/

theorem cleanStep_proper (rooted : Bool) (out : List GoString) (e : GoString)
    (he : validName e) : path.cleanStep rooted out e = e :: out := by
  obtain ⟨h1, h2, h3, _⟩ := he
  simp [path.cleanStep, h1, h2, h3]

theorem foldl_cleanStep_proper (rooted : Bool) (segs out : List GoString)
    (h : ∀ s ∈ segs, validName s) :
    segs.foldl (path.cleanStep rooted) out = segs.reverse ++ out := by
  induction segs generalizing out with
  | nil => rfl
  | cons a rest ih =>
    have ha := h a (by simp)
    have hr : ∀ s ∈ rest, validName s := fun s hs => h s (by simp [hs])
    simp [List.foldl, cleanStep_proper rooted out a ha, ih _ hr]

theorem cleanStep_good (rooted : Bool) (out : List GoString) (e : GoString)
    (hout : ∀ o ∈ out, o ≠ [] ∧ '/' ∉ o) (he : '/' ∉ e) :
    ∀ o ∈ path.cleanStep rooted out e, o ≠ [] ∧ '/' ∉ o := by
  unfold path.cleanStep
  split
  · exact hout
  · split
    · exact hout
    · rename_i hne _
      have hcons : ∀ o ∈ e :: out, o ≠ [] ∧ '/' ∉ o := by
        intro o ho
        rcases List.mem_cons.1 ho with rfl | ho
        · exact ⟨hne, he⟩
        · exact hout o ho
      split
      · split
        · rename_i top rest
          split
          · intro o ho
            exact hout o (by simp [ho])
          · split
            · exact hcons
            · exact hout
        · split
          · intro o ho
            rcases List.mem_singleton.1 ho with rfl
            exact ⟨hne, he⟩
          · simp
      · exact hcons

theorem foldl_cleanStep_good (rooted : Bool) (elems out : List GoString)
    (hout : ∀ o ∈ out, o ≠ [] ∧ '/' ∉ o) (he : ∀ e ∈ elems, '/' ∉ e) :
    ∀ o ∈ elems.foldl (path.cleanStep rooted) out, o ≠ [] ∧ '/' ∉ o := by
  induction elems generalizing out with
  | nil => exact hout
  | cons a rest ih =>
    simp only [List.foldl]
    exact ih _ (cleanStep_good rooted out a hout (he a (by simp)))
      (fun e h => he e (by simp [h]))

theorem join_snoc (xs : List GoString) (g : GoString) (hne : xs ≠ []) :
    strings.Join (xs ++ [g]) = strings.Join xs ++ '/' :: g := by
  induction xs with
  | nil => exact absurd rfl hne
  | cons a rest ih =>
    cases rest with
    | nil => simp [strings.Join]
    | cons b rest =>
      have := ih (by simp)
      simp only [List.cons_append, strings.Join, List.append_assoc, List.append_eq] at this ⊢
      rw [this]

theorem join_append (a b : List GoString) (ha : a ≠ []) (hb : b ≠ []) :
    strings.Join (a ++ b) = strings.Join a ++ '/' :: strings.Join b := by
  induction a with
  | nil => exact absurd rfl ha
  | cons x rest ih =>
    cases rest with
    | nil =>
      cases b with
      | nil => exact absurd rfl hb
      | cons y b => simp [strings.Join]
    | cons z rest =>
      have := ih (by simp)
      simp only [List.cons_append, strings.Join, List.append_assoc, List.append_eq] at this ⊢
      rw [this]

theorem lastSegment_of_good (zs : List GoString) (g : GoString)
    (hz : ∀ z ∈ zs, z ≠ [] ∧ '/' ∉ z) (hg : g ≠ [] ∧ '/' ∉ g) :
    lastSegment (strings.Join (zs ++ [g])) = g ∧
      lastSegment ('/' :: strings.Join (zs ++ [g])) = g := by
  have hns : ∀ s ∈ zs ++ [g], '/' ∉ s := by
    intro s hs
    rcases List.mem_append.1 hs with hs | hs
    · exact (hz s hs).2
    · rw [List.mem_singleton.1 hs]; exact hg.2
  have hfil : (zs ++ [g]).filter (fun s => decide (s ≠ [])) = zs ++ [g] := by
    rw [List.filter_eq_self]
    intro s hs
    rcases List.mem_append.1 hs with hs | hs
    · simpa using (hz s hs).1
    · rw [List.mem_singleton.1 hs]; simpa using hg.1
  have hsp := split_join (zs ++ [g]) (by simp) hns
  constructor
  · unfold lastSegment
    rw [hsp, hfil, List.getLast?_concat]
  · unfold lastSegment
    have : strings.Split ('/' :: strings.Join (zs ++ [g])) = [] :: (zs ++ [g]) := by
      simp [strings.Split, hsp]
    rw [this, List.filter_cons_of_neg (by simp), hfil, List.getLast?_concat]

theorem pathJoin_lastSegment (elems : List GoString) (g : GoString) (hg : validName g) :
    lastSegment (path.Join (elems ++ [g])) = g := by
  obtain ⟨hg1, _, _, hg4⟩ := hg
  have hgv : validName g := ⟨hg1, by assumption, by assumption, hg4⟩
  unfold path.Join
  have hf : (elems ++ [g]).filter (fun e => decide (e ≠ [])) =
      elems.filter (fun e => decide (e ≠ [])) ++ [g] := by
    rw [List.filter_append, List.filter_cons_of_pos (by simpa using hg1)]
    rfl
  simp only [hf]
  generalize elems.filter (fun e => decide (e ≠ [])) = xs
  rw [if_neg (by simp)]
  -- the elements of the joined string
  have hsplit : ∃ ys, strings.Split (strings.Join (xs ++ [g])) = ys ++ [g] := by
    by_cases hx : xs = []
    · subst hx
      exact ⟨[], by simpa [strings.Join] using split_noSlash g hg4⟩
    · refine ⟨strings.Split (strings.Join xs), ?_⟩
      rw [join_snoc xs g hx, split_append, split_noSlash g hg4]
  obtain ⟨ys, hys⟩ := hsplit
  have hysns : ∀ e ∈ ys, '/' ∉ e := by
    intro e he
    exact split_noSlash_mem (strings.Join (xs ++ [g])) e (by rw [hys]; simp [he])
  have hjne : strings.Join (xs ++ [g]) ≠ [] := by
    intro h0
    rw [h0] at hys
    have := congrArg List.getLast? hys
    rw [List.getLast?_concat] at this
    simp [strings.Split] at this
    exact hg1 this
  unfold path.Clean
  simp only [hjne, if_false, hys, List.foldl_append, List.foldl_cons, List.foldl_nil]
  generalize hout : ys.foldl (path.cleanStep
    (decide ((strings.Join (xs ++ [g])).head? = some '/'))) [] = out
  have hgood : ∀ o ∈ out, o ≠ [] ∧ '/' ∉ o := by
    rw [← hout]
    exact foldl_cleanStep_good _ ys [] (by simp) hysns
  rw [cleanStep_proper _ out g hgv]
  have hrev : ∀ o ∈ out.reverse, o ≠ [] ∧ '/' ∉ o :=
    fun o ho => hgood o (List.mem_reverse.1 ho)
  have hl := lastSegment_of_good out.reverse g hrev ⟨hg1, hg4⟩
  simp only [List.reverse_cons]
  split
  · exact hl.2
  · rw [if_neg (by simp)]
    exact hl.1

theorem clean_root_join (root : GoString) (segs : List GoString)
    (hroot : root = [] ∨ root = ['/']) (hne : segs ≠ [])
    (h : ∀ s ∈ segs, validName s) :
    path.Clean (root ++ strings.Join segs) = root ++ strings.Join segs := by
  rcases hroot with rfl | rfl
  · simpa using clean_join_valid segs hne h
  · have hs : ∀ s ∈ segs, '/' ∉ s := fun s hs => (h s hs).2.2.2
    have hsp : strings.Split ('/' :: strings.Join segs) = [] :: segs := by
      simp [strings.Split, split_join segs hne hs]
    unfold path.Clean
    simp only [List.singleton_append, hsp, List.foldl_cons]
    have h0 : path.cleanStep true [] [] = [] := by simp [path.cleanStep]
    simp [h0, foldl_cleanStep_proper true segs [] h]

theorem join_eq_single (k : List GoString) (s : GoString) (hne : k ≠ [])
    (hk : ∀ x ∈ k, '/' ∉ x) (hs : '/' ∉ s) (h : strings.Join k = s) : k = [s] := by
  have h1 := split_join k hne hk
  rw [h, split_noSlash s hs] at h1
  exact h1.symm

theorem getPkgPath_relative (pkgName goPath root : GoString) (relSegs : List GoString)
    (hroot : root = [] ∨ root = ['/']) (hne : relSegs ≠ [])
    (h : ∀ s ∈ relSegs, validName s) :
    GoPkgMappingDumper.GetPkgPath
        { pkgName := pkgName, pkgNameRelative := root ++ strings.Join relSegs } goPath =
      (root ++ strings.Join relSegs,
        root ++ strings.Join relSegs ++ "/assets_gen.go".toList) := by
  have hjne := join_valid_ne_nil relSegs hne h
  have hrne : root ++ strings.Join relSegs ≠ [] := by simp [hjne]
  have hgen : validName "assets_gen.go".toList := by decide
  have hall : ∀ s ∈ relSegs ++ ["assets_gen.go".toList], validName s := by
    intro s hs
    rcases List.mem_append.1 hs with hs | hs
    · exact h s hs
    · rw [List.mem_singleton.1 hs]; exact hgen
  unfold GoPkgMappingDumper.GetPkgPath
  simp only [hrne, ne_eq, not_false_eq_true, if_true]
  congr 1
  unfold path.Join
  have hf : [root ++ strings.Join relSegs, "assets_gen.go".toList].filter
      (fun e => decide (e ≠ [])) = [root ++ strings.Join relSegs, "assets_gen.go".toList] := by
    rw [List.filter_eq_self]
    intro s hs
    simp only [List.mem_cons, List.mem_singleton, List.not_mem_nil, or_false] at hs
    rcases hs with rfl | rfl
    · exact decide_eq_true hrne
    · decide
  simp only [hf]
  rw [if_neg (by simp)]
  have hj : strings.Join [root ++ strings.Join relSegs, "assets_gen.go".toList] =
      root ++ strings.Join (relSegs ++ ["assets_gen.go".toList]) := by
    rw [join_snoc relSegs _ hne]
    simp [strings.Join]
  rw [hj, clean_root_join root _ hroot (by simp) hall, join_snoc relSegs _ hne]
  simp

theorem getPkgPath_gopath (root : GoString) (goSegs pkgSegs : List GoString)
    (hroot : root = [] ∨ root = ['/']) (hgne : goSegs ≠ [])
    (hg : ∀ s ∈ goSegs, validName s) (hpne : pkgSegs ≠ [])
    (hp : ∀ s ∈ pkgSegs, validName s) (hmain : pkgSegs ≠ ["main".toList]) :
    GoPkgMappingDumper.GetPkgPath
        { pkgName := strings.Join pkgSegs, pkgNameRelative := [] }
        (root ++ strings.Join goSegs) =
      (pkgSegs.getLast hpne,
        root ++ strings.Join goSegs ++ "/src/".toList ++ strings.Join pkgSegs ++
          "/assets_gen.go".toList) := by
  have hpns : ∀ x ∈ pkgSegs, '/' ∉ x := fun x hx => (hp x hx).2.2.2
  have hpj := join_valid_ne_nil pkgSegs hpne hp
  have hgj := join_valid_ne_nil goSegs hgne hg
  have hdot : strings.Join pkgSegs ≠ ".".toList := by
    intro he
    have := join_eq_single pkgSegs _ hpne hpns (by decide) he
    have hv := hp ".".toList (by rw [this]; simp)
    exact hv.2.1 rfl
  have hmn : strings.Join pkgSegs ≠ "main".toList := by
    intro he
    exact hmain (join_eq_single pkgSegs _ hpne hpns (by decide) he)
  have hgen : validName "assets_gen.go".toList := by decide
  have hsrc : validName "src".toList := by decide
  unfold GoPkgMappingDumper.GetPkgPath
  simp only [ne_eq, not_true_eq_false, if_false, hpj, hdot, hmn, or_self]
  congr 1
  · rw [base_eq_lastSegment _ hpj]
    have hk : pkgSegs = pkgSegs.dropLast ++ [pkgSegs.getLast hpne] :=
      (List.dropLast_append_getLast hpne).symm
    have hv := hp (pkgSegs.getLast hpne) (List.getLast_mem hpne)
    have := (lastSegment_of_good pkgSegs.dropLast (pkgSegs.getLast hpne)
      (fun z hz => ⟨(hp z (List.dropLast_subset _ hz)).1,
        (hp z (List.dropLast_subset _ hz)).2.2.2⟩) ⟨hv.1, hv.2.2.2⟩).1
    rw [← hk] at this
    exact this
  · unfold path.Join
    have hf : [root ++ strings.Join goSegs, "src".toList, strings.Join pkgSegs,
        "assets_gen.go".toList].filter (fun e => decide (e ≠ [])) =
        [root ++ strings.Join goSegs, "src".toList, strings.Join pkgSegs,
          "assets_gen.go".toList] := by
      rw [List.filter_eq_self]
      intro s hs
      simp only [List.mem_cons, List.mem_singleton, List.not_mem_nil, or_false] at hs
      rcases hs with rfl | rfl | rfl | rfl
      · simp [hgj]
      · decide
      · simpa using hpj
      · decide
    simp only [hf]
    rw [if_neg (by simp)]
    have hall : ∀ s ∈ goSegs ++ ("src".toList :: (pkgSegs ++ ["assets_gen.go".toList])),
        validName s := by
      intro s hs
      simp only [List.mem_append, List.mem_cons, List.mem_singleton, List.not_mem_nil,
        or_false] at hs
      rcases hs with hs | rfl | hs | rfl
      · exact hg s hs
      · exact hsrc
      · exact hp s hs
      · exact hgen
    have hj : strings.Join [root ++ strings.Join goSegs, "src".toList, strings.Join pkgSegs,
        "assets_gen.go".toList] =
        root ++ strings.Join
          (goSegs ++ ("src".toList :: (pkgSegs ++ ["assets_gen.go".toList]))) := by
      rw [join_append goSegs _ hgne (by simp)]
      rw [show "src".toList :: (pkgSegs ++ ["assets_gen.go".toList]) =
        ["src".toList] ++ (pkgSegs ++ ["assets_gen.go".toList]) from rfl]
      rw [join_append ["src".toList] _ (by simp) (by simp), join_snoc pkgSegs _ hpne]
      simp [strings.Join]
    rw [hj, clean_root_join root _ hroot (by simp) hall]
    rw [join_append goSegs _ hgne (by simp)]
    rw [show "src".toList :: (pkgSegs ++ ["assets_gen.go".toList]) =
      ["src".toList] ++ (pkgSegs ++ ["assets_gen.go".toList]) from rfl]
    rw [join_append ["src".toList] _ (by simp) (by simp), join_snoc pkgSegs _ hpne]
    simp [strings.Join]

/-! ## Target resolution -/

/-- C5. `GetPkgPath` is the three-tier resolution of the specification, for
every pair of settings and every value of `GOPATH`: a non-empty relative
location is the name as it is; else a name other than "", "." and "main" gives
its last path segment as name; else the name is `main` and the file
`assets_gen.go`. In every tier the last segment of the target is
`assets_gen.go`. For a relative location made of proper directory names the
target is literally `<location>/assets_gen.go`, and for such a name and
`GOPATH` it is literally `<GOPATH>/src/<name>/assets_gen.go`, the name being
the last of the segments. -/
theorem getPkgPath_three_tiers (pkgName pkgNameRelative goPath : GoString)
    (relRoot goRoot : GoString) (relSegs goSegs pkgSegs : List GoString)
    (hrelRoot : relRoot = [] ∨ relRoot = ['/']) (hgoRoot : goRoot = [] ∨ goRoot = ['/'])
    (hrne : relSegs ≠ []) (hrel : ∀ s ∈ relSegs, validName s)
    (hgne : goSegs ≠ []) (hgo : ∀ s ∈ goSegs, validName s)
    (hpne : pkgSegs ≠ []) (hpkg : ∀ s ∈ pkgSegs, validName s)
    (hmain : pkgSegs ≠ ["main".toList]) :
    GoPkgMappingDumper.GetPkgPath
        { pkgName := pkgName, pkgNameRelative := pkgNameRelative } goPath =
      GetPkgPath_spec pkgName pkgNameRelative goPath ∧
    lastSegment (GoPkgMappingDumper.GetPkgPath
        { pkgName := pkgName, pkgNameRelative := pkgNameRelative } goPath).2 =
      "assets_gen.go".toList ∧
    GoPkgMappingDumper.GetPkgPath
        { pkgName := pkgName, pkgNameRelative := relRoot ++ strings.Join relSegs } goPath =
      (relRoot ++ strings.Join relSegs,
        relRoot ++ strings.Join relSegs ++ "/assets_gen.go".toList) ∧
    GoPkgMappingDumper.GetPkgPath
        { pkgName := strings.Join pkgSegs, pkgNameRelative := [] }
        (goRoot ++ strings.Join goSegs) =
      (pkgSegs.getLast hpne,
        goRoot ++ strings.Join goSegs ++ "/src/".toList ++ strings.Join pkgSegs ++
          "/assets_gen.go".toList) := by
  have hgen : validName "assets_gen.go".toList := by decide
  refine ⟨?_, ?_, getPkgPath_relative pkgName goPath relRoot relSegs hrelRoot hrne hrel,
    getPkgPath_gopath goRoot goSegs pkgSegs hgoRoot hgne hgo hpne hpkg hmain⟩
  · unfold GoPkgMappingDumper.GetPkgPath GetPkgPath_spec
    dsimp only
    by_cases hr : pkgNameRelative = []
    · by_cases hs : pkgName = [] ∨ pkgName = ".".toList ∨ pkgName = "main".toList
      · have hn : ¬(pkgName ≠ [] ∧ pkgName ≠ ".".toList ∧ pkgName ≠ "main".toList) := by
          tauto
        rw [if_neg (not_not.2 hr), if_pos hs, if_neg (not_not.2 hr), if_neg hn]
      · have hn : pkgName ≠ [] ∧ pkgName ≠ ".".toList ∧ pkgName ≠ "main".toList := by
          tauto
        rw [if_neg (not_not.2 hr), if_neg hs, if_neg (not_not.2 hr), if_pos hn,
          base_eq_lastSegment pkgName hn.1]
    · rw [if_pos hr, if_pos hr]
  · unfold GoPkgMappingDumper.GetPkgPath
    dsimp only
    split
    · exact pathJoin_lastSegment [pkgNameRelative] _ hgen
    · split
      · decide
      · exact pathJoin_lastSegment [goPath, "src".toList, pkgName] _ hgen

/-- C5, at a concrete input: the package `github.com/acme/web` under the
`GOPATH` `/home/dev/go`, and the relative location `gen/assets`. -/
theorem getPkgPath_three_tiers_witness :
    GoPkgMappingDumper.GetPkgPath
        { pkgName := "github.com/acme/web".toList, pkgNameRelative := [] }
        "/home/dev/go".toList =
      ("web".toList, "/home/dev/go/src/github.com/acme/web/assets_gen.go".toList) ∧
    GoPkgMappingDumper.GetPkgPath
        { pkgName := "github.com/acme/web".toList, pkgNameRelative := "gen/assets".toList }
        "/home/dev/go".toList =
      ("gen/assets".toList, "gen/assets/assets_gen.go".toList) := by
  have h := getPkgPath_three_tiers "github.com/acme/web".toList [] "/home/dev/go".toList
    [] ['/'] ["gen".toList, "assets".toList] ["home".toList, "dev".toList, "go".toList]
    ["github.com".toList, "acme".toList, "web".toList]
    (by decide) (by decide) (by decide) (by decide) (by decide) (by decide) (by decide)
    (by decide) (by decide)
  exact ⟨h.2.2.2, h.2.2.1⟩

/-- C8, at a concrete input: for `sampleMapping`, two entries of valid UTF-8
with different `Src`, the round trip holds. -/
theorem json_round_trip_witness : jsonRoundTrip sampleMapping :=
  (json_round_trip_iff sampleMapping).2.2 ⟨by decide, by decide⟩

end assets
